import Mathlib

/-!
Verification development for the epstl container library.

The file contains shallow embeddings of three subsystems of the library,
translated from the C++ sources:

* `EpstlMap`: the AVL-style key/value `map` (pointer-based nodes with
  parent links, modelled with an explicit heap of numbered cells;
  address `0` plays the role of `nullptr`).
* `EpstlQuad`: the point quadtree `quadtree<key_t, item_t>` and the region
  quadtree `quadtree_region<key_t>` (pure recursive quadrants; the C++
  invariant that the four child pointers are all null or all set is
  reflected by the two constructors).
* `EpstlPipe`: the staged pipeline, as a transition system whose atomic
  steps correspond to the mutex-protected critical sections of the code.

Recursive pointer walks are given explicit fuel; running out of fuel is
reported as `outOfFuel`, distinct from the null-dereference and
use-after-free errors that model C++ undefined behaviour.
-/

namespace EpstlMap

/-- Errors of the heap model: dereferencing address 0 (`nullptr`), touching
a freed cell, or exhausting recursion fuel. -/
inductive MErr where
  | nullDeref
  | useAfterFree
  | outOfFuel
deriving DecidableEq

/-- `map::node_t`: left child, right child, parent (0 = null) and the
key/value content (`content.first`, `content.second`). -/
structure MNode where
  left : Nat
  right : Nat
  parent : Nat
  key : Int
  item : Int
deriving DecidableEq

/-- The heap: allocated addresses paired with their node. -/
abbrev Heap := List (Nat × MNode)

/-- The state of a `map<int,int>`: heap, next fresh address, `m_root`,
`m_size`.  The default `m_less_operator` is `epstl::less`, i.e. `<`. -/
structure MapState where
  heap : Heap
  next : Nat
  root : Nat
  size : Nat
deriving DecidableEq

def emptyMap : MapState := ⟨[], 1, 0, 0⟩

def readN (s : MapState) (a : Nat) : Except MErr MNode :=
  if a = 0 then .error .nullDeref
  else match s.heap.lookup a with
    | none => .error .useAfterFree
    | some n => .ok n

def writeN (s : MapState) (a : Nat) (n : MNode) : Except MErr MapState :=
  if a = 0 then .error .nullDeref
  else if (s.heap.lookup a).isNone then .error .useAfterFree
  else .ok { s with heap := s.heap.map (fun p => if p.1 = a then (a, n) else p) }

def modifyN (s : MapState) (a : Nat) (f : MNode → MNode) : Except MErr MapState := do
  let n ← readN s a
  writeN s a (f n)

/-- `new node_t` followed by field assignments. -/
def allocN (s : MapState) (n : MNode) : MapState × Nat :=
  ({ s with heap := (s.next, n) :: s.heap, next := s.next + 1 }, s.next)

/-- `delete node`. -/
def freeN (s : MapState) (a : Nat) : MapState :=
  { s with heap := s.heap.filter (fun p => p.1 ≠ a) }

/-- `map::height(node_t*)`: 0 for null, otherwise `max` of the children's
heights plus one. -/
def heightN : Nat → MapState → Nat → Except MErr Nat
  | 0, _, _ => .error .outOfFuel
  | fuel + 1, s, a =>
    if a = 0 then .ok 0
    else do
      let n ← readN s a
      let hl ← heightN fuel s n.left
      let hr ← heightN fuel s n.right
      .ok (max hl hr + 1)

/-- `map::left_rotate`, field assignment by field assignment. -/
def leftRotate (s : MapState) (a : Nat) : Except MErr MapState :=
  if a = 0 then .ok s
  else do
    let n ← readN s a
    if n.right = 0 then .ok s
    else do
      let pivot := n.right
      let pv ← readN s pivot
      let s ← modifyN s a (fun m => { m with right := pv.left })
      let s ← if pv.left ≠ 0 then modifyN s pv.left (fun m => { m with parent := a })
              else .ok s
      let s ← modifyN s pivot (fun m => { m with left := a })
      let n2 ← readN s a
      let nodeParent := n2.parent
      let s ← if nodeParent ≠ 0 then do
                let p ← readN s nodeParent
                if p.left = a then modifyN s nodeParent (fun m => { m with left := pivot })
                else modifyN s nodeParent (fun m => { m with right := pivot })
              else .ok { s with root := pivot }
      let s ← modifyN s a (fun m => { m with parent := pivot })
      let s ← modifyN s pivot (fun m => { m with parent := nodeParent })
      .ok s

/-- `map::right_rotate`, mirror image of `left_rotate`. -/
def rightRotate (s : MapState) (a : Nat) : Except MErr MapState :=
  if a = 0 then .ok s
  else do
    let n ← readN s a
    if n.left = 0 then .ok s
    else do
      let pivot := n.left
      let pv ← readN s pivot
      let s ← modifyN s a (fun m => { m with left := pv.right })
      let s ← if pv.right ≠ 0 then modifyN s pv.right (fun m => { m with parent := a })
              else .ok s
      let s ← modifyN s pivot (fun m => { m with right := a })
      let n2 ← readN s a
      let nodeParent := n2.parent
      let s ← if nodeParent ≠ 0 then do
                let p ← readN s nodeParent
                if p.left = a then modifyN s nodeParent (fun m => { m with left := pivot })
                else modifyN s nodeParent (fun m => { m with right := pivot })
              else .ok { s with root := pivot }
      let s ← modifyN s a (fun m => { m with parent := pivot })
      let s ← modifyN s pivot (fun m => { m with parent := nodeParent })
      .ok s

/-- `map::balance_node`: a single left or right rotation when the height
difference exceeds one; not recursive. -/
def balanceNode (fuel : Nat) (s : MapState) (a : Nat) : Except MErr MapState :=
  if a = 0 then .ok s
  else do
    let n ← readN s a
    let hl ← heightN fuel s n.left
    let hr ← heightN fuel s n.right
    let diff : Int := (hl : Int) - (hr : Int)
    if diff < -1 then leftRotate s a
    else if diff > 1 then rightRotate s a
    else .ok s

/-- `map::insert_recursive`. -/
def insertRec : Nat → MapState → Nat → Int → Int → Except MErr (MapState × Bool)
  | 0, _, _, _, _ => .error .outOfFuel
  | fuel + 1, s, cur, key, item => do
    let n ← readN s cur
    if n.key = key then .ok (s, false)
    else if key < n.key then
      if n.left ≠ 0 then do
        let (s, r) ← insertRec fuel s n.left key item
        if r = false then .ok (s, false)
        else do
          let s ← balanceNode fuel s n.left
          .ok (s, true)
      else do
        let (s, addr) := allocN s ⟨0, 0, cur, key, item⟩
        let s ← modifyN s cur (fun m => { m with left := addr })
        .ok ({ s with size := s.size + 1 }, true)
    else
      if n.right ≠ 0 then do
        let (s, r) ← insertRec fuel s n.right key item
        if r = false then .ok (s, false)
        else do
          let s ← balanceNode fuel s n.right
          .ok (s, true)
      else do
        let (s, addr) := allocN s ⟨0, 0, cur, key, item⟩
        let s ← modifyN s cur (fun m => { m with right := addr })
        .ok ({ s with size := s.size + 1 }, true)

/-- `map::insert`: root creation, recursive insert, then one balance step
at the root. -/
def mapInsert (fuel : Nat) (s : MapState) (key item : Int) :
    Except MErr (MapState × Bool) :=
  if s.root = 0 then
    let (s, addr) := allocN s ⟨0, 0, 0, key, item⟩
    .ok ({ s with root := addr, size := s.size + 1 }, true)
  else do
    let (s, r) ← insertRec fuel s s.root key item
    if r = false then .ok (s, false)
    else do
      let n ← readN s s.root
      let hl ← heightN fuel s n.left
      let hr ← heightN fuel s n.right
      let diff : Int := (hl : Int) - (hr : Int)
      let s ← if diff < -1 then leftRotate s s.root
              else if diff > 1 then rightRotate s s.root
              else .ok s
      .ok (s, true)

/-- `map::min_node`. -/
def minNode : Nat → MapState → Nat → Except MErr Nat
  | 0, _, _ => .error .outOfFuel
  | fuel + 1, s, a => do
    let n ← readN s a
    if n.left ≠ 0 then minNode fuel s n.left else .ok a

/-- `map::max_node`. -/
def maxNode : Nat → MapState → Nat → Except MErr Nat
  | 0, _, _ => .error .outOfFuel
  | fuel + 1, s, a => do
    let n ← readN s a
    if n.right ≠ 0 then maxNode fuel s n.right else .ok a

/-- `map::erase_recursive`, with every pointer read and write performed on
the current heap in source order (the aliasing between `min`, its parent
and `current_node` matters). -/
def eraseRec : Nat → MapState → Nat → Int → Except MErr (MapState × Bool)
  | 0, _, _, _ => .error .outOfFuel
  | fuel + 1, s, cur, key =>
    if cur = 0 then .ok (s, false)
    else do
      let n ← readN s cur
      if n.key = key then
        if n.left ≠ 0 ∨ n.right ≠ 0 then
          if n.left = 0 then do
            let p ← readN s n.parent
            let s ← if p.left = cur then
                      modifyN s n.parent (fun m => { m with left := n.right })
                    else if p.right = cur then
                      modifyN s n.parent (fun m => { m with right := n.right })
                    else .ok s
            let s ← if n.right ≠ 0 then
                      modifyN s n.right (fun m => { m with parent := n.parent })
                    else .ok s
            .ok ({ freeN s cur with size := s.size - 1 }, true)
          else if n.right = 0 then do
            let p ← readN s n.parent
            let s ← if p.left = cur then
                      modifyN s n.parent (fun m => { m with left := n.left })
                    else if p.right = cur then
                      modifyN s n.parent (fun m => { m with right := n.left })
                    else .ok s
            let s ← if n.left ≠ 0 then
                      modifyN s n.left (fun m => { m with parent := n.parent })
                    else .ok s
            .ok ({ freeN s cur with size := s.size - 1 }, true)
          else do
            let mi ← minNode fuel s n.right
            let mn ← readN s mi
            let s ← if mn.parent ≠ 0 then
                      modifyN s mn.parent (fun m => { m with left := 0 })
                    else .ok s
            let c1 ← readN s cur
            let s ← modifyN s mi (fun m => { m with parent := c1.parent })
            let c2 ← readN s cur
            let s ← modifyN s mi (fun m => { m with left := c2.left })
            let mn2 ← readN s mi
            let c3 ← readN s cur
            let s ← if mn2.right ≠ 0 then do
                      let mx ← maxNode fuel s mn2.right
                      modifyN s mx (fun m => { m with right := c3.right })
                    else
                      modifyN s mi (fun m => { m with right := c3.right })
            let c4 ← readN s cur
            let p ← readN s c4.parent
            let s ← if p.left = cur then
                      modifyN s c4.parent (fun m => { m with left := mi })
                    else if p.right = cur then
                      modifyN s c4.parent (fun m => { m with right := mi })
                    else .ok s
            .ok ({ freeN s cur with size := s.size - 1 }, true)
        else do
          let s ← if n.parent ≠ 0 then do
                    let p ← readN s n.parent
                    if p.left = cur then
                      modifyN s n.parent (fun m => { m with left := 0 })
                    else if p.right = cur then
                      modifyN s n.parent (fun m => { m with right := 0 })
                    else .ok s
                  else .ok s
          .ok ({ freeN s cur with size := s.size - 1 }, true)
      else do
        let (s, r1) ← eraseRec fuel s n.left key
        if r1 then do
          let s ← balanceNode fuel s cur
          .ok (s, true)
        else do
          let (s, r2) ← eraseRec fuel s n.right key
          if r2 then do
            let s ← balanceNode fuel s cur
            .ok (s, true)
          else .ok (s, false)

/-- `map::erase`: recursive erase from the root, one balance step at
`m_root`, and the new `m_size` as return value. -/
def mapErase (fuel : Nat) (s : MapState) (key : Int) :
    Except MErr (MapState × Nat) := do
  let (s, r) ← eraseRec fuel s s.root key
  let s ← if r then balanceNode fuel s s.root else .ok s
  .ok (s, s.size)

/-- `map::search`: iterative BST descent. -/
def searchN : Nat → MapState → Int → Except MErr Nat
  | 0, _, _ => .error .outOfFuel
  | fuel + 1, s, key => do
    searchFrom fuel s s.root key
where
  searchFrom : Nat → MapState → Nat → Int → Except MErr Nat
    | 0, _, _, _ => .error .outOfFuel
    | _, _, 0, _ => .ok 0
    | fuel + 1, s, cur, key => do
      let n ← readN s cur
      if n.key = key then .ok cur
      else if key < n.key then searchFrom fuel s n.left key
      else searchFrom fuel s n.right key

/-- Mutable `map::at`: `search` then `&node->content.second`, null when
absent. -/
def mapAt (fuel : Nat) (s : MapState) (key : Int) : Except MErr (Option Int) := do
  let a ← searchN fuel s key
  if a = 0 then .ok none
  else do
    let n ← readN s a
    .ok (some n.item)

/-- One step of `iterator_t::operator++` in `KEY_ORDER`: climb one level
when the node is a left child without right child, otherwise the minimum
of the right subtree, otherwise end. -/
def iterSucc (fuel : Nat) (s : MapState) (cur : Nat) : Except MErr Nat := do
  let n ← readN s cur
  if n.right = 0 ∧ n.parent ≠ 0 then do
    let p ← readN s n.parent
    if p.left = cur then .ok n.parent
    else .ok 0
  else if n.right ≠ 0 then minNode fuel s n.right
  else .ok 0

/-- One step of `iterator_t::operator++` in `KEY_REVERSE_ORDER`. -/
def iterSuccRev (fuel : Nat) (s : MapState) (cur : Nat) : Except MErr Nat := do
  let n ← readN s cur
  if n.left = 0 ∧ n.parent ≠ 0 then do
    let p ← readN s n.parent
    if p.right = cur then .ok n.parent
    else .ok 0
  else if n.left ≠ 0 then maxNode fuel s n.left
  else .ok 0

/-- Keys produced by iterating with the given successor function until the
iterator compares equal to `end()` (null). -/
def iterCollect (succ : MapState → Nat → Except MErr Nat) :
    Nat → MapState → Nat → Except MErr (List Int)
  | 0, _, _ => .error .outOfFuel
  | fuel + 1, s, cur =>
    if cur = 0 then .ok []
    else do
      let n ← readN s cur
      let nxt ← succ s cur
      let rest ← iterCollect succ fuel s nxt
      .ok (n.key :: rest)

/-- Forward iteration `begin()` to `end()`: start at `min_node(m_root)`. -/
def iterKeys (fuel : Nat) (s : MapState) : Except MErr (List Int) := do
  let b ← minNode fuel s s.root
  iterCollect (iterSucc fuel) fuel s b

/-- Reverse iteration `rbegin()` to `rend()`: start at `max_node(m_root)`. -/
def iterKeysRev (fuel : Nat) (s : MapState) : Except MErr (List Int) := do
  let b ← maxNode fuel s s.root
  iterCollect (iterSuccRev fuel) fuel s b

/-- Fold `map::insert` over a list of key/value pairs (ignoring the
returned booleans, as the test scenarios do). -/
def insertList (fuel : Nat) (s : MapState) : List (Int × Int) → Except MErr MapState
  | [] => .ok s
  | (k, v) :: rest => do
    let (s, _) ← mapInsert fuel s k v
    insertList fuel s rest

/-- The balanced seven-key tree of the spec scenarios:
keys [10, 5, 15, 3, 7, 12, 20], values key × 10. -/
def tree7 : Except MErr MapState :=
  insertList 64 emptyMap [(10, 100), (5, 50), (15, 150), (3, 30), (7, 70), (12, 120), (20, 200)]

/-- The three-key zig-zag scenario [3, 1, 2]. -/
def tree312 : Except MErr MapState :=
  insertList 64 emptyMap [(3, 30), (1, 10), (2, 20)]

/-- Root key together with the heights of the root's two subtrees. -/
def rootProfile (fuel : Nat) (s : MapState) : Except MErr (Int × Nat × Nat) := do
  let n ← readN s s.root
  let hl ← heightN fuel s n.left
  let hr ← heightN fuel s n.right
  .ok (n.key, hl, hr)

/-- C1: the height-balance claim fails on the code.  Inserting the keys
[3, 1, 2] produces (after the single right rotation performed by
`map::insert` at the root) the tree rooted at key 1 whose left subtree has
height 0 and whose right subtree (3 with left child 2) has height 2, so
`|height(left) − height(right)| = 2 > 1` at the root.  The single-rotation
`balance_node` cannot restore balance for this inner (zig-zag) imbalance;
spec §9 flags exactly this as the missing double rotation. -/
theorem c1_insert_312_breaks_avl_balance :
    (do let s ← tree312; rootProfile 64 s) = .ok (1, 0, 2) ∧
      ¬((0 : Int) - 2 ≤ 1 ∧ (2 : Int) - 0 ≤ 1) :=
  ⟨rfl, by decide⟩

/-- C2: erasing a key stored at the root crashes instead of removing it.
After inserting [10, 5, 15, 3, 7, 12, 20] the root holds key 10 with two
children; `map::erase_recursive` then evaluates
`current_node->parent->left_node` with `current_node->parent == nullptr`
(and never updates `m_root`), a null dereference.  Before the call,
`at(10)` finds the value 100, so the key was present. -/
theorem c2_erase_root_key_null_deref :
    (do let s ← tree7; mapAt 64 s 10) = .ok (some 100) ∧
      (do let s ← tree7; mapErase 64 s 10) = .error .nullDeref :=
  ⟨rfl, rfl⟩

/-- C6: iteration does not visit every key.  On the balanced seven-key
tree (size 7), forward iteration from `begin()` yields only [3, 5, 7]:
at node 7 — a right child with no right child — `operator++` returns the
end iterator instead of climbing to the ancestor 10, because the climbing
branch only handles a node that is a left child of its parent.  Reverse
iteration symmetrically yields only [20, 15, 12]. -/
theorem c6_iteration_stops_after_three_keys :
    (do let s ← tree7; pure s.size) = (.ok 7 : Except MErr Nat) ∧
      (do let s ← tree7; iterKeys 64 s) = .ok [3, 5, 7] ∧
      (do let s ← tree7; iterKeysRev 64 s) = .ok [20, 15, 12] :=
  ⟨rfl, rfl, rfl⟩

end EpstlMap

namespace EpstlQuad

/-- Error of the quadtree model: dereferencing a null quadrant pointer
(`m_root` when the tree is empty). -/
inductive QErr where
  | nullDeref
deriving DecidableEq

/-- `quadtree::position_t` (the unused `z` component is omitted). -/
structure Pos where
  x : Int
  y : Int
deriving DecidableEq

/-- `quadtree::rect_bound_t`: the rectangle edges together with the stored
center `(cx, cy)`. -/
structure Bound where
  left : Int
  right : Int
  top : Int
  bottom : Int
  cx : Int
  cy : Int
deriving DecidableEq

/-- `rect_bound_t::isInside`: half-open on the right and on the top. -/
def Bound.inside (b : Bound) (x y : Int) : Bool :=
  decide (b.left ≤ x) && decide (x < b.right) && decide (b.bottom ≤ y) && decide (y < b.top)

/-- Division of an integer sum by `2.` (a C++ `double`) followed by the
implicit conversion back to the integer key type: exact halving then
truncation toward zero. -/
def tz2 (n : Int) : Int := if 0 ≤ n then n / 2 else -((-n) / 2)

/-- North-east child bounds as built by `quadtree::create_quadrants`. -/
def childNE (b : Bound) : Bound :=
  { left := b.cx, right := b.right, top := b.top, bottom := b.cy,
    cx := tz2 (b.cx + b.right), cy := tz2 (b.top + b.cy) }

/-- North-west child bounds as built by `quadtree::create_quadrants`. -/
def childNW (b : Bound) : Bound :=
  { left := b.left, right := b.cx, top := b.top, bottom := b.cy,
    cx := tz2 (b.left + b.cx), cy := tz2 (b.top + b.cy) }

/-- South-west child bounds as built by `quadtree::create_quadrants`. -/
def childSW (b : Bound) : Bound :=
  { left := b.left, right := b.cx, top := b.cy, bottom := b.bottom,
    cx := tz2 (b.left + b.cx), cy := tz2 (b.cy + b.bottom) }

/-- South-east child bounds as built by `quadtree::create_quadrants`. -/
def childSE (b : Bound) : Bound :=
  { left := b.cx, right := b.right, top := b.cy, bottom := b.bottom,
    cx := tz2 (b.cx + b.right), cy := tz2 (b.cy + b.bottom) }

/-- `quadtree::quadrant_t`.  In the C++ structure the four child pointers
are either all null or all set (`create_quadrants` creates the four in one
step and the removal paths clear the four in one step), which is reflected
by the two constructors.  Internal nodes keep their stale `data` and
`data_position` fields, exactly as the source never clears them. -/
inductive Quad (V : Type) where
  | leaf (data : V) (pos : Pos) (bound : Bound)
  | node (data : V) (pos : Pos) (bound : Bound) (ne nw sw se : Quad V)
deriving DecidableEq

def Quad.bound : Quad V → Bound
  | .leaf _ _ b => b
  | .node _ _ b _ _ _ _ => b

def Quad.data : Quad V → V
  | .leaf d _ _ => d
  | .node d _ _ _ _ _ _ => d

def Quad.isLeaf : Quad V → Bool
  | .leaf .. => true
  | .node .. => false

/-- `quadtree::compute_depth`. -/
def computeDepth : Quad V → Nat
  | .leaf .. => 0
  | .node _ _ _ ne nw sw se =>
    max (computeDepth ne) (max (computeDepth nw) (max (computeDepth sw) (computeDepth se))) + 1

/-- The point-quadtree `quadtree::get_value` (const form): descend through
`select_quadrant` and at a leaf compare the stored position, returning the
default value when it differs. -/
def getV (dflt : V) : Quad V → Int → Int → V
  | .leaf d p b, x, y =>
    if b.inside x y = false then dflt
    else if p.x = x ∧ p.y = y then d else dflt
  | .node _ _ b ne nw sw se, x, y =>
    if b.inside x y = false then dflt
    else if b.cx ≤ x ∧ b.cy ≤ y then getV dflt ne x y
    else if x < b.cx ∧ b.cy ≤ y then getV dflt nw x y
    else if b.cx ≤ x ∧ y < b.cy then getV dflt se x y
    else getV dflt sw x y

/-- The short-circuiting `insert_quadrant(ne) || insert_quadrant(nw) ||
insert_quadrant(sw) || insert_quadrant(se)` chain of the point quadtree,
threading the size and rebuilding the parent node; the source repeats this
chain verbatim at an internal node and after a subdivision. -/
def chain4 (ins : Quad V → Nat → Option (Quad V × Nat × Bool)) (d : V) (p : Pos)
    (b : Bound) (ne nw sw se : Quad V) (sz : Nat) : Option (Quad V × Nat × Bool) := do
  let (ne, sz, r) ← ins ne sz
  if r then pure (.node d p b ne nw sw se, sz, true)
  else do
    let (nw, sz, r) ← ins nw sz
    if r then pure (.node d p b ne nw sw se, sz, true)
    else do
      let (sw, sz, r) ← ins sw sz
      if r then pure (.node d p b ne nw sw se, sz, true)
      else do
        let (se, sz, r) ← ins se sz
        pure (.node d p b ne nw sw se, sz, r)

/-- The point-quadtree `quadtree::insert_quadrant`, threading `m_size`.
The result is the updated quadrant, the updated size and the returned
boolean; `none` means the recursion fuel ran out. -/
def insQ [DecidableEq V] (dflt : V) (noRep : Bool) :
    Nat → Quad V → Int → Int → V → Nat → Option (Quad V × Nat × Bool)
  | 0, _, _, _, _, _ => none
  | fuel + 1, q, x, y, item, sz =>
    if q.bound.inside x y = false then some (q, sz, false)
    else
      match q with
      | .node d p b ne nw sw se =>
        chain4 (fun c szc => insQ dflt noRep fuel c x y item szc) d p b ne nw sw se sz
      | .leaf d p b =>
        if d = dflt then some (.leaf item ⟨x, y⟩ b, sz + 1, true)
        else if p.x ≠ x ∨ p.y ≠ y then do
          let ne := Quad.leaf dflt (⟨0, 0⟩ : Pos) (childNE b)
          let nw := Quad.leaf dflt (⟨0, 0⟩ : Pos) (childNW b)
          let sw := Quad.leaf dflt (⟨0, 0⟩ : Pos) (childSW b)
          let se := Quad.leaf dflt (⟨0, 0⟩ : Pos) (childSE b)
          let (ne, sz, _) ← insQ dflt noRep fuel ne p.x p.y d sz
          let (nw, sz, _) ← insQ dflt noRep fuel nw p.x p.y d sz
          let (sw, sz, _) ← insQ dflt noRep fuel sw p.x p.y d sz
          let (se, sz, _) ← insQ dflt noRep fuel se p.x p.y d sz
          let sz := sz - 1
          chain4 (fun c szc => insQ dflt noRep fuel c x y item szc) d p b ne nw sw se sz
        else
          if noRep = false then some (.leaf item p b, sz, true)
          else some (q, sz, false)

/-- The bound of the root quadrant as computed on first insertion:
`left = center.x − width / 2.` in `double` arithmetic truncated back to
the key type, and the root's `bound.center` is `m_center` itself. -/
def rootBound (cX cY w h : Int) : Bound :=
  { left := tz2 (2 * cX - w), right := tz2 (2 * cX - w) + w,
    bottom := tz2 (2 * cY - h), top := tz2 (2 * cY - h) + h,
    cx := cX, cy := cY }

/-- The `quadtree` object: optional root, `m_size`, `m_depth`, the default
value, the scratch `m_exposed_default_value`, the geometry and the
behaviour flag byte. -/
structure PTree (V : Type) where
  root : Option (Quad V)
  size : Nat
  depth : Nat
  dflt : V
  exposed : V
  width : Int
  height : Int
  cX : Int
  cY : Int
  flag : Nat
deriving DecidableEq

/-- A freshly constructed quadtree (no root yet). -/
def mkPTree (cX cY w h : Int) (dflt : V) : PTree V :=
  { root := none, size := 0, depth := 0, dflt := dflt, exposed := dflt,
    width := w, height := h, cX := cX, cY := cY, flag := 0 }

/-- `m_behaviour_flag & quadtree_no_replace`. -/
def PTree.noReplace (t : PTree V) : Bool := t.flag % 2 = 1

/-- The point-quadtree `quadtree::insert`: the first insertion creates the
root leaf unconditionally (no bounds check) and does not touch `m_depth`;
otherwise `insert_quadrant` runs and `m_depth` is recomputed. -/
def ptInsert [DecidableEq V] (fuel : Nat) (t : PTree V) (x y : Int) (item : V) :
    Option (PTree V) :=
  match t.root with
  | none =>
    some { t with
      root := some (.leaf item ⟨x, y⟩ (rootBound t.cX t.cY t.width t.height)),
      size := t.size + 1 }
  | some q =>
    (insQ t.dflt t.noReplace fuel q x y item t.size).map fun r =>
      { t with root := some r.1, size := r.2.1, depth := computeDepth r.1 }

/-- Const `quadtree::at`: `get_value(m_root, x, y)` dereferences the root,
which is null for an empty tree. -/
def ptAt (t : PTree V) (x y : Int) : Except QErr V :=
  match t.root with
  | none => .error .nullDeref
  | some q => .ok (getV t.dflt q x y)

/-- `quadtree::clone_quadrant`: bounds, data and children are cloned and
parent links re-stitched, but `data_position` is left default-initialized
(the source never copies it). -/
def cloneQ : Quad V → Quad V
  | .leaf d _ b => .leaf d ⟨0, 0⟩ b
  | .node d _ b ne nw sw se => .node d ⟨0, 0⟩ b (cloneQ ne) (cloneQ nw) (cloneQ sw) (cloneQ se)

/-- The copy constructor `quadtree::quadtree(const quadtree&)`: geometry,
size, depth and default value are copied; the root is deep-cloned with
`clone_quadrant`. -/
def ptCopy (t : PTree V) : PTree V :=
  { t with root := t.root.map cloneQ }

/-- Fold `ptInsert` over a list of `(x, y, value)` triples. -/
def runInserts [DecidableEq V] (fuel : Nat) : PTree V → List (Int × Int × V) → Option (PTree V)
  | t, [] => some t
  | t, (x, y, v) :: rest => do
    let t ← ptInsert fuel t x y v
    runInserts fuel t rest

/-! ### The mutable `at` overload (claim C10)

The mutable `quadtree::at` first assigns
`m_exposed_default_value = m_default_value` and then returns the reference
produced by the mutable `get_value`, which is either a stored leaf's
`data` field or `m_exposed_default_value`.  We model the returned
reference as a location: a path to a leaf, or the scratch member. -/

/-- One descent direction, in the order tested by `select_quadrant`. -/
inductive Dir where
  | dne
  | dnw
  | dse
  | dsw
deriving DecidableEq

/-- The location denoted by the reference returned by the mutable
`get_value`: `none` is `m_exposed_default_value`, `some path` is the
`data` field of the leaf at `path`. -/
def locV : Quad V → Int → Int → Option (List Dir)
  | .leaf _ p b, x, y =>
    if b.inside x y = false then none
    else if p.x = x ∧ p.y = y then some [] else none
  | .node _ _ b ne nw sw se, x, y =>
    if b.inside x y = false then none
    else if b.cx ≤ x ∧ b.cy ≤ y then (locV ne x y).map (Dir.dne :: ·)
    else if x < b.cx ∧ b.cy ≤ y then (locV nw x y).map (Dir.dnw :: ·)
    else if b.cx ≤ x ∧ y < b.cy then (locV se x y).map (Dir.dse :: ·)
    else (locV sw x y).map (Dir.dsw :: ·)

/-- Writing through a stored-leaf location. -/
def writePath (v : V) : Quad V → List Dir → Quad V
  | .leaf _ p b, [] => .leaf v p b
  | .node d p b ne nw sw se, Dir.dne :: rest => .node d p b (writePath v ne rest) nw sw se
  | .node d p b ne nw sw se, Dir.dnw :: rest => .node d p b ne (writePath v nw rest) sw se
  | .node d p b ne nw sw se, Dir.dse :: rest => .node d p b ne nw sw (writePath v se rest)
  | .node d p b ne nw sw se, Dir.dsw :: rest => .node d p b ne nw (writePath v sw rest) se
  | q, _ => q

/-- Mutable `quadtree::at`: reset the scratch member, then locate the
reference.  Dereferencing `m_root` when the tree has no root is a null
dereference, exactly as in the const overload. -/
def atMut (t : PTree V) (x y : Int) : Except QErr (PTree V × Option (List Dir)) :=
  match t.root with
  | none => .error .nullDeref
  | some q => .ok ({ t with exposed := t.dflt }, locV q x y)

/-- Assignment through the reference returned by the mutable `at`. -/
def writeLoc (t : PTree V) (l : Option (List Dir)) (v : V) : PTree V :=
  match l with
  | none => { t with exposed := v }
  | some path => { t with root := t.root.map (fun q => writePath v q path) }

/-- Reading through the reference returned by the mutable `at`. -/
def readLoc (t : PTree V) (l : Option (List Dir)) : V :=
  match l with
  | none => t.exposed
  | some path => match t.root with
    | none => t.exposed
    | some q => readPath q path
where
  readPath : Quad V → List Dir → V
    | .leaf d _ _, _ => d
    | .node d _ _ _ _ _ _, [] => d
    | .node _ _ _ ne _ _ _, Dir.dne :: rest => readPath ne rest
    | .node _ _ _ _ nw _ _, Dir.dnw :: rest => readPath nw rest
    | .node _ _ _ _ _ _ se, Dir.dse :: rest => readPath se rest
    | .node _ _ _ _ _ sw _, Dir.dsw :: rest => readPath sw rest

/-! ### Region quadtree (`quadtree_region<key_t>`, V = Bool) -/

/-- The region-quadtree `get_value` (const): a leaf returns its value
directly, with no stored-position comparison. -/
def getVR (dflt : Bool) : Quad Bool → Int → Int → Bool
  | .leaf d _ b, x, y =>
    if b.inside x y = false then dflt else d
  | .node _ _ b ne nw sw se, x, y =>
    if b.inside x y = false then dflt
    else if b.cx ≤ x ∧ b.cy ≤ y then getVR dflt ne x y
    else if x < b.cx ∧ b.cy ≤ y then getVR dflt nw x y
    else if b.cx ≤ x ∧ y < b.cy then getVR dflt se x y
    else getVR dflt sw x y

/-- The region-quadtree `insert_quadrant`: at an internal node all four
children are visited and a uniform merge is attempted; at a leaf whose
value differs the quadrant subdivides when larger than one unit on some
axis, pushing the prior value by inserting it at each child's center,
then inserts the requested value at `(x, y)` into all four children. -/
def insQR (dflt : Bool) :
    Nat → Quad Bool → Int → Int → Bool → Nat → Option (Quad Bool × Nat × Bool)
  | 0, _, _, _, _, _ => none
  | fuel + 1, q, x, y, item, sz =>
    if q.bound.inside x y = false then some (q, sz, false)
    else
      match q with
      | .node d p b ne nw sw se => do
        let (ne, sz, r1) ← insQR dflt fuel ne x y item sz
        let (nw, sz, r2) ← insQR dflt fuel nw x y item sz
        let (sw, sz, r3) ← insQR dflt fuel sw x y item sz
        let (se, sz, r4) ← insQR dflt fuel se x y item sz
        let q2 := Quad.node d p b ne nw sw se
        let modified : Nat :=
          (if r1 then 1 else 0) + (if r2 then 1 else 0) +
          (if r3 then 1 else 0) + (if r4 then 1 else 0)
        if 0 < modified ∧ computeDepth q2 = 1 ∧
            ne.data = nw.data ∧ ne.data = sw.data ∧ ne.data = se.data then
          pure (.leaf ne.data p b, sz, true)
        else
          pure (q2, sz, false)
      | .leaf d p b =>
        if d ≠ item then
          if (b.left ≠ b.cx ∧ b.right ≠ b.cx) ∨ (b.bottom ≠ b.cy ∧ b.top ≠ b.cy) then do
            let ne := Quad.leaf dflt (⟨0, 0⟩ : Pos) (childNE b)
            let nw := Quad.leaf dflt (⟨0, 0⟩ : Pos) (childNW b)
            let sw := Quad.leaf dflt (⟨0, 0⟩ : Pos) (childSW b)
            let se := Quad.leaf dflt (⟨0, 0⟩ : Pos) (childSE b)
            let (ne, sz, _) ← insQR dflt fuel ne (childNE b).cx (childNE b).cy d sz
            let (nw, sz, _) ← insQR dflt fuel nw (childNW b).cx (childNW b).cy d sz
            let (sw, sz, _) ← insQR dflt fuel sw (childSW b).cx (childSW b).cy d sz
            let (se, sz, _) ← insQR dflt fuel se (childSE b).cx (childSE b).cy d sz
            let (ne, sz, _) ← insQR dflt fuel ne x y item sz
            let (nw, sz, _) ← insQR dflt fuel nw x y item sz
            let (sw, sz, _) ← insQR dflt fuel sw x y item sz
            let (se, sz, _) ← insQR dflt fuel se x y item sz
            pure (.node d p b ne nw sw se, sz, false)
          else
            pure (.leaf item p b, (if item then sz + 1 else sz - 1), true)
        else some (q, sz, false)

/-- The region-quadtree `insert`: the root is created lazily with the
default value (without counting anything), then `insert_quadrant` runs
unconditionally and `m_depth` is recomputed. -/
def regionInsert (fuel : Nat) (t : PTree Bool) (x y : Int) (item : Bool) :
    Option (PTree Bool) :=
  let t :=
    match t.root with
    | none =>
      { t with root := some (.leaf t.dflt ⟨0, 0⟩ (rootBound t.cX t.cY t.width t.height)) }
    | some _ => t
  match t.root with
  | some q =>
    (insQR t.dflt fuel q x y item t.size).map fun r =>
      { t with root := some r.1, size := r.2.1, depth := computeDepth r.1 }
  | none => none

/-- `quadtree_region::set`. -/
def rset (fuel : Nat) (t : PTree Bool) (x y : Int) : Option (PTree Bool) :=
  regionInsert fuel t x y true

/-- `quadtree_region::unset`. -/
def runset (fuel : Nat) (t : PTree Bool) (x y : Int) : Option (PTree Bool) :=
  regionInsert fuel t x y false

/-- Const `at` of the region quadtree. -/
def regionAt (t : PTree Bool) (x y : Int) : Except QErr Bool :=
  match t.root with
  | none => .error .nullDeref
  | some q => .ok (getVR t.dflt q x y)

/-- `true` when some internal node of the quadrant has four leaf children
all holding the same value — the configuration the uniformity-merge
invariant forbids. -/
def fourEqualLeafChildren [DecidableEq V] : Quad V → Bool
  | .leaf .. => false
  | .node _ _ _ ne nw sw se =>
    (ne.isLeaf && nw.isLeaf && sw.isLeaf && se.isLeaf &&
      decide (ne.data = nw.data) && decide (ne.data = sw.data) &&
      decide (ne.data = se.data)) ||
    fourEqualLeafChildren ne || fourEqualLeafChildren nw ||
    fourEqualLeafChildren sw || fourEqualLeafChildren se

/-- Fold `set`/`unset` operations (`true` = set) over a region tree. -/
def runRegionOps (fuel : Nat) : PTree Bool → List (Int × Int × Bool) → Option (PTree Bool)
  | t, [] => some t
  | t, (x, y, v) :: rest => do
    let t ← regionInsert fuel t x y v
    runRegionOps fuel t rest

/-! ### Concrete scenario states -/

/-- A fresh `quadtree<int, int>(20, 20)`. -/
def t20 : PTree Int := mkPTree 0 0 20 20 0

/-- The same tree with the `quadtree_no_replace` flag set. -/
def t20nr : PTree Int := { mkPTree 0 0 20 20 0 with flag := 1 }

/-- A fresh `quadtree_region<int>(4, 4)` (default value `false`). -/
def reg4 : PTree Bool := mkPTree 0 0 4 4 false

/-- The 4×4 region after setting the four cells of its south-west 2×2
quadrant; the quadrant merges into a single `true` leaf. -/
def regMerged : Option (PTree Bool) :=
  runRegionOps 32 reg4 [(-2, -2, true), (-1, -2, true), (-2, -1, true), (-1, -1, true)]

/-- `regMerged` followed by `unset(-2, -2)`. -/
def regAfterUnset : Option (PTree Bool) := do
  let t ← regMerged
  runset 32 t (-2) (-2)

/-- The 16 cells of the 4×4 region in row-major order. -/
def cells16 : List (Int × Int × Bool) :=
  (List.range 4).flatMap fun j =>
    (List.range 4).map fun i => ((i : Int) - 2, (j : Int) - 2, true)

/-- The 4×4 region after setting all 16 cells one at a time. -/
def reg16 : Option (PTree Bool) := runRegionOps 64 reg4 cells16

/-- C3: the uniformity-merge invariant is violated by the code.  On a 4×4
region, setting the four cells of the south-west quadrant merges it into a
single 2×2 `true` leaf (no forbidden configuration yet); the subsequent
public call `unset(-2, -2)` subdivides that leaf, and because the freshly
created children's truncated centers (0,0), (-1,0), (-1,-1) and (0,-1)
all lie outside their own half-open bounds, the pushed-down inserts are
all no-ops: the node is left with four equal-valued (`false`) leaf
children and no merge fires.  The 16-cell scenario of the claim itself
does hold (a single `true` leaf of depth 0), as the last conjunct shows. -/
theorem c3_unset_leaves_four_equal_leaf_children :
    regMerged.map (fun t => t.root.map fourEqualLeafChildren) = some (some false) ∧
      regAfterUnset.map (fun t => t.root.map fourEqualLeafChildren) = some (some true) ∧
      reg16.map (fun t => (t.root.map Quad.isLeaf, t.root.map Quad.data, t.depth))
        = some (some true, some true, 0) :=
  ⟨rfl, rfl, rfl⟩

/-- C5: subdividing a leaf does not preserve the covered area.  In
`regMerged` the south-west 2×2 leaf `[-2,0)×[-2,0)` holds `true` and the
unit cell (-1,-1) lies inside it; after `unset(-2, -2)` — an insert of
`false` at the distinct cell (-2,-2) — `at(-1,-1)` flips from `true` to
`false`, because the prior value was pushed only at the children's
truncated centers, which lie outside the children's bounds. -/
theorem c5_subdivision_loses_prior_value :
    (childSW (rootBound 0 0 4 4)).inside (-1) (-1) = true ∧
      regMerged.map (fun t => regionAt t (-1) (-1)) = some (.ok true) ∧
      regAfterUnset.map (fun t => regionAt t (-1) (-1)) = some (.ok false) :=
  ⟨rfl, rfl, rfl⟩

/-- C8: the deep clone forgets stored positions.  After inserting
(5,5) → 100 into a 20×20 point quadtree, `at(5,5)` on the original yields
100, but on the copy it yields the default 0: `clone_quadrant` copies
`bound` and `data` but never `data_position`, so the cloned leaf's stored
position is the default (0,0) and the lookup's position comparison
fails. -/
theorem c8_clone_drops_data_position :
    (ptInsert 32 t20 5 5 100).map (fun t => (ptAt t 5 5, ptAt (ptCopy t) 5 5))
      = some (.ok 100, .ok 0) :=
  rfl

/-- Helper for C9: `insert_quadrant` returns `false` immediately, without
touching the quadrant or the size, when the coordinates lie outside the
quadrant's bounds. -/
theorem insQ_not_inside [DecidableEq V] (dflt : V) (noRep : Bool) (fuel : Nat)
    (q : Quad V) (x y : Int) (item : V) (sz : Nat)
    (h : q.bound.inside x y = false) :
    insQ dflt noRep (fuel + 1) q x y item sz = some (q, sz, false) := by
  simp [insQ, h]

/-- C9 (amended): for a point quadtree whose root exists, inserting at
coordinates outside the root's bounds is a no-op: `insert_quadrant`
returns `false` at the lowest level, the stored quadrants and the size
are unchanged, and no exception is raised (the null-quadrant check cannot
fire since the root is non-null). -/
theorem c9_outside_insert_noop [DecidableEq V] (t : PTree V) (q : Quad V)
    (x y : Int) (item : V) (fuel : Nat)
    (hroot : t.root = some q) (hout : q.bound.inside x y = false) :
    insQ t.dflt t.noReplace (fuel + 1) q x y item t.size = some (q, t.size, false) ∧
      ptInsert (fuel + 1) t x y item = some { t with depth := computeDepth q } := by
  refine ⟨insQ_not_inside _ _ _ _ _ _ _ _ hout, ?_⟩
  cases t
  simp only [PTree.mk.injEq] at hroot ⊢
  simp [ptInsert, hroot, insQ_not_inside _ _ _ _ _ _ _ _ hout]

/-- A concrete tree with a root for the C9 witness: the 20×20 point
quadtree after a first insert of (5,5) → 100. -/
def t20q : Quad Int := .leaf 100 ⟨5, 5⟩ (rootBound 0 0 20 20)

/-- The tree state holding `t20q`. -/
def t20root : PTree Int := { t20 with root := some t20q, size := 1 }

/-- Witness for `c9_outside_insert_noop` at the concrete point (100,100),
which lies outside the root bounds `[-10,10) × [-10,10)`. -/
theorem c9_outside_insert_noop_witness :
    insQ t20root.dflt t20root.noReplace 33 t20q 100 100 7 t20root.size
        = some (t20q, t20root.size, false) ∧
      ptInsert 33 t20root 100 100 7 = some { t20root with depth := computeDepth t20q } :=
  c9_outside_insert_noop t20root t20q 100 100 7 32 rfl rfl

/-- C9 (counterexample to the claim as stated): on an *empty* tree the
first insert skips the bounds check entirely; inserting (100,100) → 7
into an empty 20×20 quadtree stores the point and sets the size to 1,
although (100,100) is outside the root bounds that the insert creates. -/
theorem c9_empty_tree_outside_insert_stores :
    (rootBound 0 0 20 20).inside 100 100 = false ∧
      (ptInsert 32 t20 100 100 7).map (fun t => (t.size, t.root.isSome)) = some (1, true) :=
  ⟨rfl, rfl⟩

/-- C10 (amended): on a tree whose root exists, when the mutable `at`
resolves to the scratch member — the descent ends at a leaf whose stored
`data_position` differs from the queried coordinates, or the coordinates
are out of bounds — the scratch holds a fresh copy of the default value,
and assigning any value through the returned reference changes neither
the stored quadrants, nor the size, nor any later const `at`, nor the
state and reference produced by any later mutable `at`.  Having no point
stored at the coordinates does *not* guarantee the scratch case: see
`c10_unstored_point_write_changes_at`. -/
theorem c10_scratch_write_invisible (V : Type) (t : PTree V) (q : Quad V)
    (x y : Int) (z : V) (t1 : PTree V) (l : Option (List Dir))
    (hroot : t.root = some q)
    (hat : atMut t x y = .ok (t1, l))
    (hnone : l = none) :
    t1 = { t with exposed := t.dflt } ∧
      readLoc t1 l = t.dflt ∧
      (writeLoc t1 l z).root = t.root ∧
      (writeLoc t1 l z).size = t.size ∧
      (∀ u w, ptAt (writeLoc t1 l z) u w = ptAt t u w) ∧
      (∀ u w, atMut (writeLoc t1 l z) u w = atMut t1 u w) := by
  subst hnone
  have ht1 : t1 = { t with exposed := t.dflt } := by
    simp [atMut, hroot] at hat
    rw [hat.1.symm, hroot]
  subst ht1
  refine ⟨rfl, rfl, rfl, rfl, ?_, ?_⟩
  · intro u w
    simp [writeLoc, ptAt]
  · intro u w
    simp [writeLoc, atMut]

/-- Witness for `c10_scratch_write_invisible`: the 20×20 tree holding only
(5,5) → 100, queried mutably at the empty cell (1,1). -/
theorem c10_scratch_write_invisible_witness :
    ({ t20root with exposed := t20root.dflt } : PTree Int)
        = { t20root with exposed := t20root.dflt } ∧
      readLoc { t20root with exposed := t20root.dflt } none = t20root.dflt ∧
      (writeLoc { t20root with exposed := t20root.dflt } none 55).root = t20root.root ∧
      (writeLoc { t20root with exposed := t20root.dflt } none 55).size = t20root.size ∧
      (∀ u w, ptAt (writeLoc { t20root with exposed := t20root.dflt } none 55) u w
        = ptAt t20root u w) ∧
      (∀ u w, atMut (writeLoc { t20root with exposed := t20root.dflt } none 55) u w
        = atMut { t20root with exposed := t20root.dflt } u w) :=
  c10_scratch_write_invisible Int t20root t20q 1 1 55
    { t20root with exposed := t20root.dflt } none rfl rfl rfl

/-- On an empty quadtree no point is stored anywhere, yet the mutable
`at` does not return a scratch reference — `get_value(m_root, …)`
dereferences the null root. -/
theorem c10_empty_tree_mutable_at_null_deref :
    atMut (mkPTree 0 0 20 20 (0 : Int)) 1 1 = .error .nullDeref :=
  rfl

/-- C10 (counterexample to the claim as stated): after inserting
(−5,−5) → 100 and (−3,−3) → 50 into the 20×20 tree, no point is stored
at (0,0) — size is 2 and `at(0,0)` returns the default 0 — yet the
mutable `at(0,0)` does not return the scratch reference: subdivision
left the fresh NE child's `data_position` default-initialized to (0,0),
so the position test succeeds and the returned reference aims into the
tree (location `some [Dir.dne]`); writing 55 through it makes a later
`at(0,0)` return 55, refuting the claim that such writes change no later
`at` result. -/
theorem c10_unstored_point_write_changes_at :
    ((runInserts 32 t20 [(-5, -5, (100 : Int)), (-3, -3, 50)]).map fun t =>
        (t.size, ptAt t 0 0,
         (atMut t 0 0).map fun r => (r.2, ptAt (writeLoc r.1 r.2 55) 0 0))) =
      some (2, .ok 0, .ok (some [Dir.dne], .ok 55)) :=
  rfl


/-! ### Functional specification of point-quadtree insertion (claim C7)

What follows proves, by induction over `insQ`, the exact value/size
semantics of a sequence of in-bounds `insert` calls: `at` afterwards
returns the fold of the operations (most recent value; under the
no-replace flag the stored value is kept only while it differs from the
default), and with pairwise distinct coordinates the size equals the
number of inserts.  Out-of-bounds inserts refute the unrestricted claim:
the first insert on an empty tree stores even outside the bounds, while
every later out-of-bounds insert is a no-op. -/

def insideP (b : Bound) (x y : Int) : Prop :=
  b.left ≤ x ∧ x < b.right ∧ b.bottom ≤ y ∧ y < b.top

instance (b : Bound) (x y : Int) : Decidable (insideP b x y) := by
  unfold insideP; infer_instance

theorem inside_iff (b : Bound) (x y : Int) : b.inside x y = true ↔ insideP b x y := by
  simp [Bound.inside, insideP, and_assoc]

theorem inside_false_iff (b : Bound) (x y : Int) : b.inside x y = false ↔ ¬ insideP b x y := by
  rw [← inside_iff]
  cases h : b.inside x y <;> simp

theorem tz2_le (n : Int) : n - 1 ≤ 2 * tz2 n ∧ 2 * tz2 n ≤ n + 1 := by
  unfold tz2
  by_cases h : 0 ≤ n <;> simp [h] <;> omega

def wfB (b : Bound) : Prop :=
  b.left ≤ b.cx ∧ b.cx ≤ b.right ∧ b.bottom ≤ b.cy ∧ b.cy ≤ b.top

def wfQ : Quad V → Prop
  | .leaf _ _ b => wfB b
  | .node _ _ b ne nw sw se =>
    wfB b ∧ ne.bound = childNE b ∧ nw.bound = childNW b ∧ sw.bound = childSW b ∧
      se.bound = childSE b ∧ wfQ ne ∧ wfQ nw ∧ wfQ sw ∧ wfQ se

theorem wfB_childNE {b : Bound} (hwf : wfB b) : wfB (childNE b) := by
  have h1 := tz2_le (b.cx + b.right)
  have h2 := tz2_le (b.top + b.cy)
  simp only [wfB, childNE] at *
  omega

theorem wfB_childNW {b : Bound} (hwf : wfB b) : wfB (childNW b) := by
  have h1 := tz2_le (b.left + b.cx)
  have h2 := tz2_le (b.top + b.cy)
  simp only [wfB, childNW] at *
  omega

theorem wfB_childSW {b : Bound} (hwf : wfB b) : wfB (childSW b) := by
  have h1 := tz2_le (b.left + b.cx)
  have h2 := tz2_le (b.cy + b.bottom)
  simp only [wfB, childSW] at *
  omega

theorem wfB_childSE {b : Bound} (hwf : wfB b) : wfB (childSE b) := by
  have h1 := tz2_le (b.cx + b.right)
  have h2 := tz2_le (b.cy + b.bottom)
  simp only [wfB, childSE] at *
  omega

theorem insideP_childNE {b : Bound} {x y : Int} (hin : insideP b x y) :
    insideP (childNE b) x y ↔ b.cx ≤ x ∧ b.cy ≤ y := by
  simp only [insideP, childNE] at *
  omega

theorem insideP_childNW {b : Bound} {x y : Int} (hin : insideP b x y) :
    insideP (childNW b) x y ↔ x < b.cx ∧ b.cy ≤ y := by
  simp only [insideP, childNW] at *
  omega

theorem insideP_childSW {b : Bound} {x y : Int} (hin : insideP b x y) :
    insideP (childSW b) x y ↔ x < b.cx ∧ y < b.cy := by
  simp only [insideP, childSW] at *
  omega

theorem insideP_childSE {b : Bound} {x y : Int} (hin : insideP b x y) :
    insideP (childSE b) x y ↔ b.cx ≤ x ∧ y < b.cy := by
  simp only [insideP, childSE] at *
  omega

theorem insideP_of_childNE {b : Bound} {x y : Int} (hwf : wfB b)
    (h : insideP (childNE b) x y) : insideP b x y := by
  simp only [insideP, childNE, wfB] at *
  omega

theorem insideP_of_childNW {b : Bound} {x y : Int} (hwf : wfB b)
    (h : insideP (childNW b) x y) : insideP b x y := by
  simp only [insideP, childNW, wfB] at *
  omega

theorem insideP_of_childSW {b : Bound} {x y : Int} (hwf : wfB b)
    (h : insideP (childSW b) x y) : insideP b x y := by
  simp only [insideP, childSW, wfB] at *
  omega

theorem insideP_of_childSE {b : Bound} {x y : Int} (hwf : wfB b)
    (h : insideP (childSE b) x y) : insideP b x y := by
  simp only [insideP, childSE, wfB] at *
  omega

def occQ (dflt : V) (S : Pos → Prop) : Quad V → Prop
  | .leaf d p b => d ≠ dflt → insideP b p.x p.y ∧ S p
  | .node _ _ _ ne nw sw se =>
    occQ dflt S ne ∧ occQ dflt S nw ∧ occQ dflt S sw ∧ occQ dflt S se

theorem occQ_mono {dflt : V} {S T : Pos → Prop} (h : ∀ p, S p → T p) :
    ∀ q, occQ dflt S q → occQ dflt T q := by
  intro q
  induction q with
  | leaf d p b => intro hq hd; exact ⟨(hq hd).1, h _ (hq hd).2⟩
  | node d p b ne nw sw se ihne ihnw ihsw ihse =>
    rintro ⟨h1, h2, h3, h4⟩
    exact ⟨ihne h1, ihnw h2, ihsw h3, ihse h4⟩

theorem getV_outside (dflt : V) (q : Quad V) (x y : Int)
    (h : ¬ insideP q.bound x y) : getV dflt q x y = dflt := by
  cases q with
  | leaf d p b =>
    have hb : b.inside x y = false := (inside_false_iff b x y).2 h
    simp [getV, hb]
  | node d p b ne nw sw se =>
    have hb : b.inside x y = false := (inside_false_iff b x y).2 h
    simp [getV, hb]

theorem getV_leaf_dflt (dflt : V) (p : Pos) (b : Bound) (u v : Int) :
    getV dflt (.leaf dflt p b) u v = dflt := by
  simp [getV, ite_self]

theorem getV_node_ne (dflt : V) (d : V) (p : Pos) (b : Bound) (ne nw sw se : Quad V)
    {x y : Int} (hin : insideP b x y) (hc : b.cx ≤ x ∧ b.cy ≤ y) :
    getV dflt (.node d p b ne nw sw se) x y = getV dflt ne x y := by
  have hb : b.inside x y = true := (inside_iff b x y).2 hin
  simp [getV, hb, hc]

theorem getV_node_nw (dflt : V) (d : V) (p : Pos) (b : Bound) (ne nw sw se : Quad V)
    {x y : Int} (hin : insideP b x y) (hc : x < b.cx ∧ b.cy ≤ y) :
    getV dflt (.node d p b ne nw sw se) x y = getV dflt nw x y := by
  have hb : b.inside x y = true := (inside_iff b x y).2 hin
  have h1 : ¬ (b.cx ≤ x ∧ b.cy ≤ y) := by omega
  simp [getV, hb, h1, hc]

theorem getV_node_se (dflt : V) (d : V) (p : Pos) (b : Bound) (ne nw sw se : Quad V)
    {x y : Int} (hin : insideP b x y) (hc : b.cx ≤ x ∧ y < b.cy) :
    getV dflt (.node d p b ne nw sw se) x y = getV dflt se x y := by
  have hb : b.inside x y = true := (inside_iff b x y).2 hin
  have h1 : ¬ (b.cx ≤ x ∧ b.cy ≤ y) := by omega
  have h2 : ¬ (x < b.cx ∧ b.cy ≤ y) := by omega
  simp [getV, hb, h1, h2, hc]

theorem getV_node_sw (dflt : V) (d : V) (p : Pos) (b : Bound) (ne nw sw se : Quad V)
    {x y : Int} (hin : insideP b x y) (hc : x < b.cx ∧ y < b.cy) :
    getV dflt (.node d p b ne nw sw se) x y = getV dflt sw x y := by
  have hb : b.inside x y = true := (inside_iff b x y).2 hin
  have h1 : ¬ (b.cx ≤ x ∧ b.cy ≤ y) := by omega
  have h2 : ¬ (x < b.cx ∧ b.cy ≤ y) := by omega
  have h3 : ¬ (b.cx ≤ x ∧ y < b.cy) := by omega
  simp [getV, hb, h1, h2, h3]

theorem insQ_outside_eq [DecidableEq V] {dflt : V} {noRep : Bool} {fuel : Nat}
    {q : Quad V} {x y : Int} {item : V} {sz : Nat} {out : Quad V × Nat × Bool}
    (h : q.bound.inside x y = false)
    (hsome : insQ dflt noRep fuel q x y item sz = some out) : out = (q, sz, false) := by
  cases fuel with
  | zero => simp [insQ] at hsome
  | succ n =>
    rw [insQ_not_inside dflt noRep n q x y item sz h] at hsome
    exact (Option.some.inj hsome).symm

theorem insQ_fresh_leaf [DecidableEq V] {dflt : V} {noRep : Bool} {fuel : Nat}
    {b2 : Bound} {px py : Int} {dd : V} {sz : Nat} {out : Quad V × Nat × Bool}
    {pos0 : Pos}
    (hin : b2.inside px py = true)
    (hsome : insQ dflt noRep fuel (.leaf dflt pos0 b2) px py dd sz = some out) :
    out = (.leaf dd ⟨px, py⟩ b2, sz + 1, true) := by
  cases fuel with
  | zero => simp [insQ] at hsome
  | succ n =>
    unfold insQ at hsome
    simp [hin, Quad.bound] at hsome
    exact hsome.symm

theorem getV_leaf_pos_ne (dflt : V) (d : V) (p : Pos) (b : Bound) {x y : Int}
    (h : ¬ (p.x = x ∧ p.y = y)) : getV dflt (.leaf d p b) x y = dflt := by
  by_cases hb : b.inside x y = false
  · simp [getV, hb]
  · simp [getV, hb, h]

theorem getV_mem {dflt : V} {S : Pos → Prop} {q : Quad V} {x y : Int}
    (hocc : occQ dflt S q) (h : getV dflt q x y ≠ dflt) : S ⟨x, y⟩ := by
  induction q with
  | leaf d p b =>
    by_cases hb : b.inside x y = false
    · simp [getV, hb] at h
    · by_cases hp : p.x = x ∧ p.y = y
      · simp only [getV, hb, if_false] at h
        rw [if_neg (by simp [hb]), if_pos hp] at h
        obtain ⟨hq1, hq2⟩ := hocc h
        have : p = ⟨x, y⟩ := by cases p; simp at hp ⊢; exact hp
        rwa [← this]
      · rw [getV_leaf_pos_ne dflt d p b hp] at h
        exact absurd rfl h
  | node d p b ne nw sw se ihne ihnw ihsw ihse =>
    obtain ⟨o1, o2, o3, o4⟩ := hocc
    by_cases hb : b.inside x y = false
    · simp [getV, hb] at h
    · simp only [getV, hb, if_false] at h
      rw [if_neg (by simp [hb])] at h
      by_cases c1 : b.cx ≤ x ∧ b.cy ≤ y
      · rw [if_pos c1] at h; exact ihne o1 h
      · rw [if_neg c1] at h
        by_cases c2 : x < b.cx ∧ b.cy ≤ y
        · rw [if_pos c2] at h; exact ihnw o2 h
        · rw [if_neg c2] at h
          by_cases c3 : b.cx ≤ x ∧ y < b.cy
          · rw [if_pos c3] at h; exact ihse o4 h
          · rw [if_neg c3] at h; exact ihsw o3 h

theorem node_vs_leaf (dflt : V) (d d2 : V) (p p2 : Pos) (b : Bound)
    (C1 C2 C3 C4 : Quad V) (hwf : wfB b)
    (h1 : ∀ u v, insideP (childNE b) u v → getV dflt C1 u v = getV dflt (.leaf d p b) u v)
    (h2 : ∀ u v, insideP (childNW b) u v → getV dflt C2 u v = getV dflt (.leaf d p b) u v)
    (h3 : ∀ u v, insideP (childSW b) u v → getV dflt C3 u v = getV dflt (.leaf d p b) u v)
    (h4 : ∀ u v, insideP (childSE b) u v → getV dflt C4 u v = getV dflt (.leaf d p b) u v) :
    ∀ u v, getV dflt (.node d2 p2 b C1 C2 C3 C4) u v = getV dflt (.leaf d p b) u v := by
  intro u v
  by_cases hin : insideP b u v
  · by_cases c1 : b.cx ≤ u <;> by_cases c2 : b.cy ≤ v
    · rw [getV_node_ne dflt d2 p2 b C1 C2 C3 C4 hin ⟨c1, c2⟩]
      exact h1 u v ((insideP_childNE hin).2 ⟨c1, c2⟩)
    · rw [getV_node_se dflt d2 p2 b C1 C2 C3 C4 hin ⟨c1, by omega⟩]
      exact h4 u v ((insideP_childSE hin).2 ⟨c1, by omega⟩)
    · rw [getV_node_nw dflt d2 p2 b C1 C2 C3 C4 hin ⟨by omega, c2⟩]
      exact h2 u v ((insideP_childNW hin).2 ⟨by omega, c2⟩)
    · rw [getV_node_sw dflt d2 p2 b C1 C2 C3 C4 hin ⟨by omega, by omega⟩]
      exact h3 u v ((insideP_childSW hin).2 ⟨by omega, by omega⟩)
  · have e1 : getV dflt (Quad.node d2 p2 b C1 C2 C3 C4) u v = dflt :=
      getV_outside dflt _ u v hin
    have e2 : getV dflt (Quad.leaf d p b) u v = dflt := getV_outside dflt _ u v hin
    rw [e1, e2]

def InsConc [DecidableEq V] (dflt : V) (noRep : Bool) (q : Quad V) (x y : Int)
    (item : V) (sz : Nat) (out : Quad V × Nat × Bool) (S : Pos → Prop) : Prop :=
  out.1.bound = q.bound ∧ wfQ out.1 ∧
    occQ dflt (fun p => p = ⟨x, y⟩ ∨ S p) out.1 ∧
    (∀ u v, getV dflt out.1 u v =
      if u = x ∧ v = y then
        (if noRep = true ∧ getV dflt q x y ≠ dflt then getV dflt q x y else item)
      else getV dflt q u v) ∧
    out.2.1 = sz + (if getV dflt q x y = dflt then 1 else 0) ∧
    (out.2.2 = false → out.1 = q ∧ out.2.1 = sz ∧ noRep = true ∧ getV dflt q x y ≠ dflt)

theorem insConc_node_ne [DecidableEq V] {dflt : V} {noRep : Bool}
    {d : V} {p : Pos} {b : Bound} {ne nw sw se ne2 : Quad V} {x y : Int} {item : V}
    {sz sz2 : Nat} {S : Pos → Prop}
    (hwfB : wfB b)
    (hbne : ne.bound = childNE b) (hbnw : nw.bound = childNW b)
    (hbsw : sw.bound = childSW b) (hbse : se.bound = childSE b)
    (hwfnw : wfQ nw) (hwfsw : wfQ sw) (hwfse : wfQ se)
    (hoccnw : occQ dflt S nw) (hoccsw : occQ dflt S sw) (hoccse : occQ dflt S se)
    (hin : insideP b x y) (hcx : b.cx ≤ x) (hcy : b.cy ≤ y)
    (hc : InsConc dflt noRep ne x y item sz (ne2, sz2, true) S) :
    InsConc dflt noRep (.node d p b ne nw sw se) x y item sz
      (.node d p b ne2 nw sw se, sz2, true) S := by
  obtain ⟨ha, hw, ho, hg, hs, -⟩ := hc
  have hgx : getV dflt (Quad.node d p b ne nw sw se) x y = getV dflt ne x y :=
    getV_node_ne dflt d p b ne nw sw se hin ⟨hcx, hcy⟩
  refine ⟨rfl,
    ⟨hwfB, by rw [ha, hbne], hbnw, hbsw, hbse, hw, hwfnw, hwfsw, hwfse⟩,
    ⟨ho, occQ_mono (fun q hq => Or.inr hq) _ hoccnw,
      occQ_mono (fun q hq => Or.inr hq) _ hoccsw,
      occQ_mono (fun q hq => Or.inr hq) _ hoccse⟩, ?_, ?_, ?_⟩
  · intro u v
    by_cases hbuv : insideP b u v
    · by_cases c1 : b.cx ≤ u <;> by_cases c2 : b.cy ≤ v
      · rw [getV_node_ne dflt d p b ne2 nw sw se hbuv ⟨c1, c2⟩,
            getV_node_ne dflt d p b ne nw sw se hbuv ⟨c1, c2⟩, hgx]
        exact hg u v
      · have hne_uv : ¬ (u = x ∧ v = y) := by rintro ⟨rfl, rfl⟩; omega
        rw [getV_node_se dflt d p b ne2 nw sw se hbuv ⟨c1, by omega⟩,
            getV_node_se dflt d p b ne nw sw se hbuv ⟨c1, by omega⟩, if_neg hne_uv]
      · have hne_uv : ¬ (u = x ∧ v = y) := by rintro ⟨rfl, rfl⟩; omega
        rw [getV_node_nw dflt d p b ne2 nw sw se hbuv ⟨by omega, c2⟩,
            getV_node_nw dflt d p b ne nw sw se hbuv ⟨by omega, c2⟩, if_neg hne_uv]
      · have hne_uv : ¬ (u = x ∧ v = y) := by rintro ⟨rfl, rfl⟩; omega
        rw [getV_node_sw dflt d p b ne2 nw sw se hbuv ⟨by omega, by omega⟩,
            getV_node_sw dflt d p b ne nw sw se hbuv ⟨by omega, by omega⟩, if_neg hne_uv]
    · have hne_uv : ¬ (u = x ∧ v = y) := by rintro ⟨rfl, rfl⟩; exact hbuv hin
      have e1 : getV dflt (Quad.node d p b ne2 nw sw se) u v = dflt :=
        getV_outside dflt _ u v hbuv
      have e2 : getV dflt (Quad.node d p b ne nw sw se) u v = dflt :=
        getV_outside dflt _ u v hbuv
      rw [e1, if_neg hne_uv, e2]
  · rw [hgx]; exact hs
  · intro hfalse; simp at hfalse

theorem insConc_node_nw [DecidableEq V] {dflt : V} {noRep : Bool}
    {d : V} {p : Pos} {b : Bound} {ne nw sw se nw2 : Quad V} {x y : Int} {item : V}
    {sz sz2 : Nat} {S : Pos → Prop}
    (hwfB : wfB b)
    (hbne : ne.bound = childNE b) (hbnw : nw.bound = childNW b)
    (hbsw : sw.bound = childSW b) (hbse : se.bound = childSE b)
    (hwfne : wfQ ne) (hwfsw : wfQ sw) (hwfse : wfQ se)
    (hoccne : occQ dflt S ne) (hoccsw : occQ dflt S sw) (hoccse : occQ dflt S se)
    (hin : insideP b x y) (hcx : x < b.cx) (hcy : b.cy ≤ y)
    (hc : InsConc dflt noRep nw x y item sz (nw2, sz2, true) S) :
    InsConc dflt noRep (.node d p b ne nw sw se) x y item sz
      (.node d p b ne nw2 sw se, sz2, true) S := by
  obtain ⟨ha, hw, ho, hg, hs, -⟩ := hc
  have hgx : getV dflt (Quad.node d p b ne nw sw se) x y = getV dflt nw x y :=
    getV_node_nw dflt d p b ne nw sw se hin ⟨hcx, hcy⟩
  refine ⟨rfl,
    ⟨hwfB, hbne, by rw [ha, hbnw], hbsw, hbse, hwfne, hw, hwfsw, hwfse⟩,
    ⟨occQ_mono (fun q hq => Or.inr hq) _ hoccne, ho,
      occQ_mono (fun q hq => Or.inr hq) _ hoccsw,
      occQ_mono (fun q hq => Or.inr hq) _ hoccse⟩, ?_, ?_, ?_⟩
  · intro u v
    by_cases hbuv : insideP b u v
    · by_cases c1 : b.cx ≤ u <;> by_cases c2 : b.cy ≤ v
      · have hne_uv : ¬ (u = x ∧ v = y) := by rintro ⟨rfl, rfl⟩; omega
        rw [getV_node_ne dflt d p b ne nw2 sw se hbuv ⟨c1, c2⟩,
            getV_node_ne dflt d p b ne nw sw se hbuv ⟨c1, c2⟩, if_neg hne_uv]
      · have hne_uv : ¬ (u = x ∧ v = y) := by rintro ⟨rfl, rfl⟩; omega
        rw [getV_node_se dflt d p b ne nw2 sw se hbuv ⟨c1, by omega⟩,
            getV_node_se dflt d p b ne nw sw se hbuv ⟨c1, by omega⟩, if_neg hne_uv]
      · rw [getV_node_nw dflt d p b ne nw2 sw se hbuv ⟨by omega, c2⟩,
            getV_node_nw dflt d p b ne nw sw se hbuv ⟨by omega, c2⟩, hgx]
        exact hg u v
      · have hne_uv : ¬ (u = x ∧ v = y) := by rintro ⟨rfl, rfl⟩; omega
        rw [getV_node_sw dflt d p b ne nw2 sw se hbuv ⟨by omega, by omega⟩,
            getV_node_sw dflt d p b ne nw sw se hbuv ⟨by omega, by omega⟩, if_neg hne_uv]
    · have hne_uv : ¬ (u = x ∧ v = y) := by rintro ⟨rfl, rfl⟩; exact hbuv hin
      have e1 : getV dflt (Quad.node d p b ne nw2 sw se) u v = dflt :=
        getV_outside dflt _ u v hbuv
      have e2 : getV dflt (Quad.node d p b ne nw sw se) u v = dflt :=
        getV_outside dflt _ u v hbuv
      rw [e1, if_neg hne_uv, e2]
  · rw [hgx]; exact hs
  · intro hfalse; simp at hfalse

theorem insConc_node_sw [DecidableEq V] {dflt : V} {noRep : Bool}
    {d : V} {p : Pos} {b : Bound} {ne nw sw se sw2 : Quad V} {x y : Int} {item : V}
    {sz sz2 : Nat} {S : Pos → Prop}
    (hwfB : wfB b)
    (hbne : ne.bound = childNE b) (hbnw : nw.bound = childNW b)
    (hbsw : sw.bound = childSW b) (hbse : se.bound = childSE b)
    (hwfne : wfQ ne) (hwfnw : wfQ nw) (hwfse : wfQ se)
    (hoccne : occQ dflt S ne) (hoccnw : occQ dflt S nw) (hoccse : occQ dflt S se)
    (hin : insideP b x y) (hcx : x < b.cx) (hcy : y < b.cy)
    (hc : InsConc dflt noRep sw x y item sz (sw2, sz2, true) S) :
    InsConc dflt noRep (.node d p b ne nw sw se) x y item sz
      (.node d p b ne nw sw2 se, sz2, true) S := by
  obtain ⟨ha, hw, ho, hg, hs, -⟩ := hc
  have hgx : getV dflt (Quad.node d p b ne nw sw se) x y = getV dflt sw x y :=
    getV_node_sw dflt d p b ne nw sw se hin ⟨hcx, hcy⟩
  refine ⟨rfl,
    ⟨hwfB, hbne, hbnw, by rw [ha, hbsw], hbse, hwfne, hwfnw, hw, hwfse⟩,
    ⟨occQ_mono (fun q hq => Or.inr hq) _ hoccne,
      occQ_mono (fun q hq => Or.inr hq) _ hoccnw, ho,
      occQ_mono (fun q hq => Or.inr hq) _ hoccse⟩, ?_, ?_, ?_⟩
  · intro u v
    by_cases hbuv : insideP b u v
    · by_cases c1 : b.cx ≤ u <;> by_cases c2 : b.cy ≤ v
      · have hne_uv : ¬ (u = x ∧ v = y) := by rintro ⟨rfl, rfl⟩; omega
        rw [getV_node_ne dflt d p b ne nw sw2 se hbuv ⟨c1, c2⟩,
            getV_node_ne dflt d p b ne nw sw se hbuv ⟨c1, c2⟩, if_neg hne_uv]
      · have hne_uv : ¬ (u = x ∧ v = y) := by rintro ⟨rfl, rfl⟩; omega
        rw [getV_node_se dflt d p b ne nw sw2 se hbuv ⟨c1, by omega⟩,
            getV_node_se dflt d p b ne nw sw se hbuv ⟨c1, by omega⟩, if_neg hne_uv]
      · have hne_uv : ¬ (u = x ∧ v = y) := by rintro ⟨rfl, rfl⟩; omega
        rw [getV_node_nw dflt d p b ne nw sw2 se hbuv ⟨by omega, c2⟩,
            getV_node_nw dflt d p b ne nw sw se hbuv ⟨by omega, c2⟩, if_neg hne_uv]
      · rw [getV_node_sw dflt d p b ne nw sw2 se hbuv ⟨by omega, by omega⟩,
            getV_node_sw dflt d p b ne nw sw se hbuv ⟨by omega, by omega⟩, hgx]
        exact hg u v
    · have hne_uv : ¬ (u = x ∧ v = y) := by rintro ⟨rfl, rfl⟩; exact hbuv hin
      have e1 : getV dflt (Quad.node d p b ne nw sw2 se) u v = dflt :=
        getV_outside dflt _ u v hbuv
      have e2 : getV dflt (Quad.node d p b ne nw sw se) u v = dflt :=
        getV_outside dflt _ u v hbuv
      rw [e1, if_neg hne_uv, e2]
  · rw [hgx]; exact hs
  · intro hfalse; simp at hfalse

theorem insConc_node_se [DecidableEq V] {dflt : V} {noRep : Bool}
    {d : V} {p : Pos} {b : Bound} {ne nw sw se se2 : Quad V} {x y : Int} {item : V}
    {sz sz2 : Nat} {S : Pos → Prop}
    (hwfB : wfB b)
    (hbne : ne.bound = childNE b) (hbnw : nw.bound = childNW b)
    (hbsw : sw.bound = childSW b) (hbse : se.bound = childSE b)
    (hwfne : wfQ ne) (hwfnw : wfQ nw) (hwfsw : wfQ sw)
    (hoccne : occQ dflt S ne) (hoccnw : occQ dflt S nw) (hoccsw : occQ dflt S sw)
    (hin : insideP b x y) (hcx : b.cx ≤ x) (hcy : y < b.cy)
    (hc : InsConc dflt noRep se x y item sz (se2, sz2, true) S) :
    InsConc dflt noRep (.node d p b ne nw sw se) x y item sz
      (.node d p b ne nw sw se2, sz2, true) S := by
  obtain ⟨ha, hw, ho, hg, hs, -⟩ := hc
  have hgx : getV dflt (Quad.node d p b ne nw sw se) x y = getV dflt se x y :=
    getV_node_se dflt d p b ne nw sw se hin ⟨hcx, hcy⟩
  refine ⟨rfl,
    ⟨hwfB, hbne, hbnw, hbsw, by rw [ha, hbse], hwfne, hwfnw, hwfsw, hw⟩,
    ⟨occQ_mono (fun q hq => Or.inr hq) _ hoccne,
      occQ_mono (fun q hq => Or.inr hq) _ hoccnw,
      occQ_mono (fun q hq => Or.inr hq) _ hoccsw, ho⟩, ?_, ?_, ?_⟩
  · intro u v
    by_cases hbuv : insideP b u v
    · by_cases c1 : b.cx ≤ u <;> by_cases c2 : b.cy ≤ v
      · have hne_uv : ¬ (u = x ∧ v = y) := by rintro ⟨rfl, rfl⟩; omega
        rw [getV_node_ne dflt d p b ne nw sw se2 hbuv ⟨c1, c2⟩,
            getV_node_ne dflt d p b ne nw sw se hbuv ⟨c1, c2⟩, if_neg hne_uv]
      · rw [getV_node_se dflt d p b ne nw sw se2 hbuv ⟨c1, by omega⟩,
            getV_node_se dflt d p b ne nw sw se hbuv ⟨c1, by omega⟩, hgx]
        exact hg u v
      · have hne_uv : ¬ (u = x ∧ v = y) := by rintro ⟨rfl, rfl⟩; omega
        rw [getV_node_nw dflt d p b ne nw sw se2 hbuv ⟨by omega, c2⟩,
            getV_node_nw dflt d p b ne nw sw se hbuv ⟨by omega, c2⟩, if_neg hne_uv]
      · have hne_uv : ¬ (u = x ∧ v = y) := by rintro ⟨rfl, rfl⟩; omega
        rw [getV_node_sw dflt d p b ne nw sw se2 hbuv ⟨by omega, by omega⟩,
            getV_node_sw dflt d p b ne nw sw se hbuv ⟨by omega, by omega⟩, if_neg hne_uv]
    · have hne_uv : ¬ (u = x ∧ v = y) := by rintro ⟨rfl, rfl⟩; exact hbuv hin
      have e1 : getV dflt (Quad.node d p b ne nw sw se2) u v = dflt :=
        getV_outside dflt _ u v hbuv
      have e2 : getV dflt (Quad.node d p b ne nw sw se) u v = dflt :=
        getV_outside dflt _ u v hbuv
      rw [e1, if_neg hne_uv, e2]
  · rw [hgx]; exact hs
  · intro hfalse; simp at hfalse

theorem insConc_node_reject [DecidableEq V] {dflt : V} {noRep : Bool}
    {d : V} {p : Pos} {b : Bound} {ne nw sw se : Quad V} {x y : Int} {item : V}
    {sz : Nat} {S : Pos → Prop}
    (hwfB : wfB b)
    (hbne : ne.bound = childNE b) (hbnw : nw.bound = childNW b)
    (hbsw : sw.bound = childSW b) (hbse : se.bound = childSE b)
    (hwfne : wfQ ne) (hwfnw : wfQ nw) (hwfsw : wfQ sw) (hwfse : wfQ se)
    (hoccne : occQ dflt S ne) (hoccnw : occQ dflt S nw)
    (hoccsw : occQ dflt S sw) (hoccse : occQ dflt S se)
    (hnoRep : noRep = true)
    (hgnode : getV dflt (.node d p b ne nw sw se) x y ≠ dflt) :
    InsConc dflt noRep (.node d p b ne nw sw se) x y item sz
      (.node d p b ne nw sw se, sz, false) S := by
  refine ⟨rfl,
    ⟨hwfB, hbne, hbnw, hbsw, hbse, hwfne, hwfnw, hwfsw, hwfse⟩,
    ⟨occQ_mono (fun q hq => Or.inr hq) _ hoccne,
      occQ_mono (fun q hq => Or.inr hq) _ hoccnw,
      occQ_mono (fun q hq => Or.inr hq) _ hoccsw,
      occQ_mono (fun q hq => Or.inr hq) _ hoccse⟩, ?_, ?_, ?_⟩
  · intro u v
    by_cases huv : u = x ∧ v = y
    · obtain ⟨rfl, rfl⟩ := huv
      rw [if_pos ⟨rfl, rfl⟩, if_pos ⟨hnoRep, hgnode⟩]
    · rw [if_neg huv]
  · simp [if_neg hgnode]
  · exact fun _ => ⟨rfl, rfl, hnoRep, hgnode⟩

theorem insConc_transport [DecidableEq V] {dflt : V} {noRep : Bool}
    {q1 q2 : Quad V} {x y : Int} {item : V} {sz : Nat}
    {out : Quad V × Nat × Bool} {S : Pos → Prop}
    (hb : q1.bound = q2.bound)
    (hg : ∀ u v, getV dflt q1 u v = getV dflt q2 u v)
    (hdf : getV dflt q1 x y = dflt)
    (hc : InsConc dflt noRep q1 x y item sz out S) :
    InsConc dflt noRep q2 x y item sz out S := by
  obtain ⟨ha, hw, ho, hgc, hs, hf⟩ := hc
  have hdf2 : getV dflt q2 x y = dflt := by rw [← hg x y]; exact hdf
  refine ⟨by rw [ha, hb], hw, ho, ?_, ?_, ?_⟩
  · intro u v
    have := hgc u v
    rw [hdf] at this
    rw [this, hdf2]
    by_cases huv : u = x ∧ v = y
    · rw [if_pos huv, if_pos huv]
    · rw [if_neg huv, if_neg huv, hg u v]
  · rw [hs, if_pos hdf, if_pos hdf2]
  · intro hfalse
    obtain ⟨-, -, -, hne⟩ := hf hfalse
    exact absurd hdf hne

theorem triple_eq {A B C : Type} {a a2 : A} {b b2 : B} {c c2 : C}
    (h : (a, b, c) = (a2, b2, c2)) : a = a2 ∧ b = b2 ∧ c = c2 := by
  simpa [Prod.ext_iff] using h

theorem chain4_spec [DecidableEq V] (dflt : V) (noRep : Bool)
    (ins : Quad V → Nat → Option (Quad V × Nat × Bool))
    (d : V) (p : Pos) (b : Bound) (ne nw sw se : Quad V) (x y : Int) (item : V)
    (sz : Nat) (out : Quad V × Nat × Bool) (S : Pos → Prop)
    (hwfB : wfB b)
    (hbne : ne.bound = childNE b) (hbnw : nw.bound = childNW b)
    (hbsw : sw.bound = childSW b) (hbse : se.bound = childSE b)
    (hwfne : wfQ ne) (hwfnw : wfQ nw) (hwfsw : wfQ sw) (hwfse : wfQ se)
    (hoccne : occQ dflt S ne) (hoccnw : occQ dflt S nw)
    (hoccsw : occQ dflt S sw) (hoccse : occQ dflt S se)
    (hin : insideP b x y)
    (hout : ∀ (c : Quad V) (szc : Nat) (o : Quad V × Nat × Bool),
      c.bound.inside x y = false → ins c szc = some o → o = (c, szc, false))
    (hrec : ∀ (c : Quad V) (szc : Nat) (o : Quad V × Nat × Bool),
      wfQ c → occQ dflt S c → insideP c.bound x y → ins c szc = some o →
      InsConc dflt noRep c x y item szc o S)
    (h : chain4 ins d p b ne nw sw se sz = some out) :
    InsConc dflt noRep (.node d p b ne nw sw se) x y item sz out S := by
  unfold chain4 at h
  by_cases hcx : b.cx ≤ x <;> by_cases hcy : b.cy ≤ y
  · -- containing child: ne
    have hinne : insideP ne.bound x y := by
      rw [hbne]; exact (insideP_childNE hin).2 ⟨hcx, hcy⟩
    have houtnw : nw.bound.inside x y = false := by
      rw [hbnw, inside_false_iff]; intro hc; have := (insideP_childNW hin).1 hc; omega
    have houtsw : sw.bound.inside x y = false := by
      rw [hbsw, inside_false_iff]; intro hc; have := (insideP_childSW hin).1 hc; omega
    have houtse : se.bound.inside x y = false := by
      rw [hbse, inside_false_iff]; intro hc; have := (insideP_childSE hin).1 hc; omega
    cases hne2 : ins ne sz with
    | none => rw [hne2] at h; simp at h
    | some oNE =>
      obtain ⟨ne2, sz1, r1⟩ := oNE
      rw [hne2] at h
      simp only [Option.bind_eq_bind, Option.some_bind] at h
      have hNE := hrec ne sz (ne2, sz1, r1) hwfne hoccne hinne hne2
      cases r1 with
      | true =>
        simp only [if_true, Option.pure_def, Option.some.injEq] at h
        rw [← h]
        exact insConc_node_ne hwfB hbne hbnw hbsw hbse hwfnw hwfsw hwfse
          hoccnw hoccsw hoccse hin hcx hcy hNE
      | false =>
        obtain ⟨hne2eq, hsz1, hnoRep, hgne⟩ := hNE.2.2.2.2.2 rfl
        rw [show ne2 = ne from hne2eq, show sz1 = sz from hsz1] at h
        simp only [Bool.false_eq_true, if_false] at h
        cases hnw2 : ins nw sz with
        | none => rw [hnw2] at h; simp at h
        | some oNW =>
          rw [hnw2, hout nw sz oNW houtnw hnw2] at h
          simp only [Option.bind_eq_bind, Option.some_bind, Bool.false_eq_true, if_false] at h
          cases hsw2 : ins sw sz with
          | none => rw [hsw2] at h; simp at h
          | some oSW =>
            rw [hsw2, hout sw sz oSW houtsw hsw2] at h
            simp only [Option.bind_eq_bind, Option.some_bind, Bool.false_eq_true, if_false] at h
            cases hse2 : ins se sz with
            | none => rw [hse2] at h; simp at h
            | some oSE =>
              rw [hse2, hout se sz oSE houtse hse2] at h
              simp only [Option.bind_eq_bind, Option.some_bind, Option.pure_def,
                Option.some.injEq] at h
              rw [← h]
              refine insConc_node_reject hwfB hbne hbnw hbsw hbse hwfne hwfnw hwfsw hwfse
                hoccne hoccnw hoccsw hoccse hnoRep ?_
              rw [getV_node_ne dflt d p b ne nw sw se hin ⟨hcx, hcy⟩]
              exact hgne
  · -- containing child: se
    have hinse : insideP se.bound x y := by
      rw [hbse]; exact (insideP_childSE hin).2 ⟨hcx, by omega⟩
    have houtne : ne.bound.inside x y = false := by
      rw [hbne, inside_false_iff]; intro hc; have := (insideP_childNE hin).1 hc; omega
    have houtnw : nw.bound.inside x y = false := by
      rw [hbnw, inside_false_iff]; intro hc; have := (insideP_childNW hin).1 hc; omega
    have houtsw : sw.bound.inside x y = false := by
      rw [hbsw, inside_false_iff]; intro hc; have := (insideP_childSW hin).1 hc; omega
    cases hne2 : ins ne sz with
    | none => rw [hne2] at h; simp at h
    | some oNE =>
      rw [hne2, hout ne sz oNE houtne hne2] at h
      simp only [Option.bind_eq_bind, Option.some_bind, Bool.false_eq_true, if_false] at h
      cases hnw2 : ins nw sz with
      | none => rw [hnw2] at h; simp at h
      | some oNW =>
        rw [hnw2, hout nw sz oNW houtnw hnw2] at h
        simp only [Option.bind_eq_bind, Option.some_bind, Bool.false_eq_true, if_false] at h
        cases hsw2 : ins sw sz with
        | none => rw [hsw2] at h; simp at h
        | some oSW =>
          rw [hsw2, hout sw sz oSW houtsw hsw2] at h
          simp only [Option.bind_eq_bind, Option.some_bind, Bool.false_eq_true, if_false] at h
          cases hse2 : ins se sz with
          | none => rw [hse2] at h; simp at h
          | some oSE =>
            obtain ⟨se2, szD, r4⟩ := oSE
            rw [hse2] at h
            simp only [Option.bind_eq_bind, Option.some_bind, Option.pure_def,
              Option.some.injEq] at h
            have hSE := hrec se sz (se2, szD, r4) hwfse hoccse hinse hse2
            cases r4 with
            | true =>
              rw [← h]
              exact insConc_node_se hwfB hbne hbnw hbsw hbse hwfne hwfnw hwfsw
                hoccne hoccnw hoccsw hin hcx (by omega) hSE
            | false =>
              obtain ⟨hse2eq, hszD, hnoRep, hgse⟩ := hSE.2.2.2.2.2 rfl
              rw [show se2 = se from hse2eq, show szD = sz from hszD] at h
              rw [← h]
              refine insConc_node_reject hwfB hbne hbnw hbsw hbse hwfne hwfnw hwfsw hwfse
                hoccne hoccnw hoccsw hoccse hnoRep ?_
              rw [getV_node_se dflt d p b ne nw sw se hin ⟨hcx, by omega⟩]
              exact hgse
  · -- containing child: nw
    have hinnw : insideP nw.bound x y := by
      rw [hbnw]; exact (insideP_childNW hin).2 ⟨by omega, hcy⟩
    have houtne : ne.bound.inside x y = false := by
      rw [hbne, inside_false_iff]; intro hc; have := (insideP_childNE hin).1 hc; omega
    have houtsw : sw.bound.inside x y = false := by
      rw [hbsw, inside_false_iff]; intro hc; have := (insideP_childSW hin).1 hc; omega
    have houtse : se.bound.inside x y = false := by
      rw [hbse, inside_false_iff]; intro hc; have := (insideP_childSE hin).1 hc; omega
    cases hne2 : ins ne sz with
    | none => rw [hne2] at h; simp at h
    | some oNE =>
      rw [hne2, hout ne sz oNE houtne hne2] at h
      simp only [Option.bind_eq_bind, Option.some_bind, Bool.false_eq_true, if_false] at h
      cases hnw2 : ins nw sz with
      | none => rw [hnw2] at h; simp at h
      | some oNW =>
        obtain ⟨nw2, szB, r2⟩ := oNW
        rw [hnw2] at h
        simp only [Option.bind_eq_bind, Option.some_bind] at h
        have hNW := hrec nw sz (nw2, szB, r2) hwfnw hoccnw hinnw hnw2
        cases r2 with
        | true =>
          simp only [if_true, Option.pure_def, Option.some.injEq] at h
          rw [← h]
          exact insConc_node_nw hwfB hbne hbnw hbsw hbse hwfne hwfsw hwfse
            hoccne hoccsw hoccse hin (by omega) hcy hNW
        | false =>
          obtain ⟨hnw2eq, hszB, hnoRep, hgnw⟩ := hNW.2.2.2.2.2 rfl
          rw [show nw2 = nw from hnw2eq, show szB = sz from hszB] at h
          simp only [Bool.false_eq_true, if_false] at h
          cases hsw2 : ins sw sz with
          | none => rw [hsw2] at h; simp at h
          | some oSW =>
            rw [hsw2, hout sw sz oSW houtsw hsw2] at h
            simp only [Option.bind_eq_bind, Option.some_bind, Bool.false_eq_true, if_false] at h
            cases hse2 : ins se sz with
            | none => rw [hse2] at h; simp at h
            | some oSE =>
              rw [hse2, hout se sz oSE houtse hse2] at h
              simp only [Option.bind_eq_bind, Option.some_bind, Option.pure_def,
                Option.some.injEq] at h
              rw [← h]
              refine insConc_node_reject hwfB hbne hbnw hbsw hbse hwfne hwfnw hwfsw hwfse
                hoccne hoccnw hoccsw hoccse hnoRep ?_
              rw [getV_node_nw dflt d p b ne nw sw se hin ⟨by omega, hcy⟩]
              exact hgnw
  · -- containing child: sw
    have hinsw : insideP sw.bound x y := by
      rw [hbsw]; exact (insideP_childSW hin).2 ⟨by omega, by omega⟩
    have houtne : ne.bound.inside x y = false := by
      rw [hbne, inside_false_iff]; intro hc; have := (insideP_childNE hin).1 hc; omega
    have houtnw : nw.bound.inside x y = false := by
      rw [hbnw, inside_false_iff]; intro hc; have := (insideP_childNW hin).1 hc; omega
    have houtse : se.bound.inside x y = false := by
      rw [hbse, inside_false_iff]; intro hc; have := (insideP_childSE hin).1 hc; omega
    cases hne2 : ins ne sz with
    | none => rw [hne2] at h; simp at h
    | some oNE =>
      rw [hne2, hout ne sz oNE houtne hne2] at h
      simp only [Option.bind_eq_bind, Option.some_bind, Bool.false_eq_true, if_false] at h
      cases hnw2 : ins nw sz with
      | none => rw [hnw2] at h; simp at h
      | some oNW =>
        rw [hnw2, hout nw sz oNW houtnw hnw2] at h
        simp only [Option.bind_eq_bind, Option.some_bind, Bool.false_eq_true, if_false] at h
        cases hsw2 : ins sw sz with
        | none => rw [hsw2] at h; simp at h
        | some oSW =>
          obtain ⟨sw2, szC, r3⟩ := oSW
          rw [hsw2] at h
          simp only [Option.bind_eq_bind, Option.some_bind] at h
          have hSW := hrec sw sz (sw2, szC, r3) hwfsw hoccsw hinsw hsw2
          cases r3 with
          | true =>
            simp only [if_true, Option.pure_def, Option.some.injEq] at h
            rw [← h]
            exact insConc_node_sw hwfB hbne hbnw hbsw hbse hwfne hwfnw hwfse
              hoccne hoccnw hoccse hin (by omega) (by omega) hSW
          | false =>
            obtain ⟨hsw2eq, hszC, hnoRep, hgsw⟩ := hSW.2.2.2.2.2 rfl
            rw [show sw2 = sw from hsw2eq, show szC = sz from hszC] at h
            simp only [Bool.false_eq_true, if_false] at h
            cases hse2 : ins se sz with
            | none => rw [hse2] at h; simp at h
            | some oSE =>
              rw [hse2, hout se sz oSE houtse hse2] at h
              simp only [Option.bind_eq_bind, Option.some_bind, Option.pure_def,
                Option.some.injEq] at h
              rw [← h]
              refine insConc_node_reject hwfB hbne hbnw hbsw hbse hwfne hwfnw hwfsw hwfse
                hoccne hoccnw hoccsw hoccse hnoRep ?_
              rw [getV_node_sw dflt d p b ne nw sw se hin ⟨by omega, by omega⟩]
              exact hgsw

theorem pushed_pointwise (dflt d : V) (p : Pos) (b cb : Bound)
    (hsub : ∀ u v, insideP cb u v → insideP b u v) :
    ∀ u v, insideP cb u v →
      getV dflt (.leaf d ⟨p.x, p.y⟩ cb) u v = getV dflt (.leaf d p b) u v := by
  intro u v huv
  have hcin : cb.inside u v = true := (inside_iff _ _ _).2 huv
  have hbin : b.inside u v = true := (inside_iff _ _ _).2 (hsub u v huv)
  simp [getV, hcin, hbin]

theorem fresh_pointwise (dflt d : V) (p : Pos) (b cb : Bound)
    (hnp : ¬ insideP cb p.x p.y) :
    ∀ u v, insideP cb u v →
      getV dflt (.leaf dflt (⟨0, 0⟩ : Pos) cb) u v = getV dflt (.leaf d p b) u v := by
  intro u v huv
  rw [getV_leaf_dflt]
  have hne : ¬ (p.x = u ∧ p.y = v) := by
    intro hcc
    rw [← hcc.1, ← hcc.2] at huv
    exact hnp huv
  rw [getV_leaf_pos_ne dflt d p b hne]

theorem insConc_subdiv [DecidableEq V] {dflt : V} {noRep : Bool} {d : V} {p : Pos}
    {b : Bound} {C1 C2 C3 C4 : Quad V} {x y : Int} {item : V} {sz : Nat}
    {out : Quad V × Nat × Bool} {S : Pos → Prop}
    (hwfB : wfB b)
    (hp : p.x ≠ x ∨ p.y ≠ y)
    (h1 : ∀ u v, insideP (childNE b) u v → getV dflt C1 u v = getV dflt (.leaf d p b) u v)
    (h2 : ∀ u v, insideP (childNW b) u v → getV dflt C2 u v = getV dflt (.leaf d p b) u v)
    (h3 : ∀ u v, insideP (childSW b) u v → getV dflt C3 u v = getV dflt (.leaf d p b) u v)
    (h4 : ∀ u v, insideP (childSE b) u v → getV dflt C4 u v = getV dflt (.leaf d p b) u v)
    (hc : InsConc dflt noRep (.node d p b C1 C2 C3 C4) x y item sz out S) :
    InsConc dflt noRep (.leaf d p b) x y item sz out S := by
  have hgeq := node_vs_leaf dflt d d p p b C1 C2 C3 C4 hwfB h1 h2 h3 h4
  have hdf : getV dflt (Quad.node d p b C1 C2 C3 C4) x y = dflt := by
    rw [hgeq x y]
    exact getV_leaf_pos_ne dflt d p b
      (fun hcc => hp.elim (fun h2 => h2 hcc.1) (fun h2 => h2 hcc.2))
  exact insConc_transport
    (rfl : (Quad.node d p b C1 C2 C3 C4).bound = (Quad.leaf d p b).bound) hgeq hdf hc

theorem insQ_spec [DecidableEq V] (dflt : V) (noRep : Bool) :
    ∀ (fuel : Nat) (q : Quad V) (x y : Int) (item : V) (sz : Nat)
      (out : Quad V × Nat × Bool) (S : Pos → Prop),
      wfQ q → occQ dflt S q → insideP q.bound x y →
      insQ dflt noRep fuel q x y item sz = some out →
      InsConc dflt noRep q x y item sz out S := by
  intro fuel
  induction fuel with
  | zero => intro q x y item sz out S _ _ _ h; simp [insQ] at h
  | succ fuel IH =>
    intro q x y item sz out S hwf hocc hin h
    have hb : q.bound.inside x y = true := (inside_iff _ _ _).2 hin
    cases q with
    | node d p b ne nw sw se =>
      obtain ⟨hwfB, hbne, hbnw, hbsw, hbse, hwfne, hwfnw, hwfsw, hwfse⟩ := hwf
      obtain ⟨hoccne, hoccnw, hoccsw, hoccse⟩ := hocc
      rw [insQ, if_neg (by rw [hb]; exact fun hc => Bool.true_eq_false.mp hc)] at h
      exact chain4_spec dflt noRep _ d p b ne nw sw se x y item sz out S
        hwfB hbne hbnw hbsw hbse hwfne hwfnw hwfsw hwfse
        hoccne hoccnw hoccsw hoccse hin
        (fun c szc o hco hso => insQ_outside_eq hco hso)
        (fun c szc o hwc hoc hic hsc => IH c x y item szc o S hwc hoc hic hsc)
        h
    | leaf d p b =>
      rw [insQ, if_neg (by rw [hb]; exact fun hc => Bool.true_eq_false.mp hc)] at h
      have hb2 : b.inside x y = true := hb
      by_cases hd : d = dflt
      · rw [if_pos hd] at h
        obtain rfl := Option.some.inj h
        obtain rfl := hd.symm
        refine ⟨rfl, hwf, ?_, ?_, ?_, ?_⟩
        · intro _
          exact ⟨hin, Or.inl rfl⟩
        · intro u v
          by_cases huv : u = x ∧ v = y
          · rw [if_pos huv, if_neg (by simp [getV_leaf_dflt])]
            obtain ⟨rfl, rfl⟩ := huv
            simp [getV, hb2]
          · rw [if_neg huv,
              getV_leaf_pos_ne dflt item ⟨x, y⟩ b (fun hc => huv ⟨hc.1.symm, hc.2.symm⟩),
              getV_leaf_dflt]
        · simp [getV_leaf_dflt]
        · intro hfalse
          simp at hfalse
      · rw [if_neg hd] at h
        by_cases hp : p.x ≠ x ∨ p.y ≠ y
        · rw [if_pos hp] at h
          obtain ⟨hPin, hSp⟩ := hocc hd
          have hwfB : wfB b := hwf
          by_cases pcx : b.cx ≤ p.x <;> by_cases pcy : b.cy ≤ p.y
          · -- the pushed point lands in the NE child
            have hNEin : (childNE b).inside p.x p.y = true :=
              (inside_iff _ _ _).2 ((insideP_childNE hPin).2 ⟨pcx, pcy⟩)
            have hNWout : (childNW b).inside p.x p.y = false := by
              rw [inside_false_iff]
              intro hc
              have := (insideP_childNW hPin).1 hc
              omega
            have hSWout : (childSW b).inside p.x p.y = false := by
              rw [inside_false_iff]
              intro hc
              have := (insideP_childSW hPin).1 hc
              omega
            have hSEout : (childSE b).inside p.x p.y = false := by
              rw [inside_false_iff]
              intro hc
              have := (insideP_childSE hPin).1 hc
              omega
            have hNWoutL : (Quad.leaf dflt (⟨0, 0⟩ : Pos) (childNW b)).bound.inside p.x p.y = false := hNWout
            have hSWoutL : (Quad.leaf dflt (⟨0, 0⟩ : Pos) (childSW b)).bound.inside p.x p.y = false := hSWout
            have hSEoutL : (Quad.leaf dflt (⟨0, 0⟩ : Pos) (childSE b)).bound.inside p.x p.y = false := hSEout
            simp only [Option.bind_eq_bind] at h
            cases h1 : insQ dflt noRep fuel (Quad.leaf dflt ⟨0, 0⟩ (childNE b)) p.x p.y d sz with
            | none => rw [h1] at h; simp at h
            | some o1 =>
              obtain ⟨ne1, szA, rA⟩ := o1
              rw [h1] at h
              simp only [Option.some_bind] at h
              obtain ⟨rfl, rfl, rfl⟩ := triple_eq (insQ_fresh_leaf hNEin h1)
              cases h2 : insQ dflt noRep fuel (Quad.leaf dflt ⟨0, 0⟩ (childNW b)) p.x p.y d (sz + 1) with
              | none => rw [h2] at h; simp at h
              | some o2 =>
                obtain ⟨nw1, szB, rB⟩ := o2
                rw [h2] at h
                simp only [Option.some_bind] at h
                obtain ⟨rfl, rfl, rfl⟩ := triple_eq (insQ_outside_eq hNWoutL h2)
                cases h3 : insQ dflt noRep fuel (Quad.leaf dflt ⟨0, 0⟩ (childSW b)) p.x p.y d (sz + 1) with
                | none => rw [h3] at h; simp at h
                | some o3 =>
                  obtain ⟨sw1, szC, rC⟩ := o3
                  rw [h3] at h
                  simp only [Option.some_bind] at h
                  obtain ⟨rfl, rfl, rfl⟩ := triple_eq (insQ_outside_eq hSWoutL h3)
                  cases h4 : insQ dflt noRep fuel (Quad.leaf dflt ⟨0, 0⟩ (childSE b)) p.x p.y d (sz + 1) with
                  | none => rw [h4] at h; simp at h
                  | some o4 =>
                    obtain ⟨se1, szD, rD⟩ := o4
                    rw [h4] at h
                    simp only [Option.some_bind] at h
                    obtain ⟨rfl, rfl, rfl⟩ := triple_eq (insQ_outside_eq hSEoutL h4)
                    simp only [Nat.add_sub_cancel] at h
                    have hch := chain4_spec dflt noRep
                      (fun c szc => insQ dflt noRep fuel c x y item szc) d p b
                      (Quad.leaf d ⟨p.x, p.y⟩ (childNE b))
                      (Quad.leaf dflt ⟨0, 0⟩ (childNW b))
                      (Quad.leaf dflt ⟨0, 0⟩ (childSW b))
                      (Quad.leaf dflt ⟨0, 0⟩ (childSE b))
                      x y item sz out S hwfB rfl rfl rfl rfl
                      (wfB_childNE hwfB) (wfB_childNW hwfB)
                      (wfB_childSW hwfB) (wfB_childSE hwfB)
                      (fun _ => ⟨(insideP_childNE hPin).2 ⟨pcx, pcy⟩, hSp⟩)
                      (fun hc => absurd rfl hc)
                      (fun hc => absurd rfl hc)
                      (fun hc => absurd rfl hc)
                      hin
                      (fun c szc o hco hso => insQ_outside_eq hco hso)
                      (fun c szc o hwc hoc hic hsc => IH c x y item szc o S hwc hoc hic hsc)
                      h
                    exact insConc_subdiv hwfB hp
                      (pushed_pointwise dflt d p b (childNE b)
                        (fun u v huv => insideP_of_childNE hwfB huv))
                      (fresh_pointwise dflt d p b (childNW b)
                        ((inside_false_iff _ _ _).1 hNWout))
                      (fresh_pointwise dflt d p b (childSW b)
                        ((inside_false_iff _ _ _).1 hSWout))
                      (fresh_pointwise dflt d p b (childSE b)
                        ((inside_false_iff _ _ _).1 hSEout))
                      hch
          · -- the pushed point lands in the SE child
            have hSEin : (childSE b).inside p.x p.y = true :=
              (inside_iff _ _ _).2 ((insideP_childSE hPin).2 ⟨pcx, by omega⟩)
            have hNEout : (childNE b).inside p.x p.y = false := by
              rw [inside_false_iff]
              intro hc
              have := (insideP_childNE hPin).1 hc
              omega
            have hNWout : (childNW b).inside p.x p.y = false := by
              rw [inside_false_iff]
              intro hc
              have := (insideP_childNW hPin).1 hc
              omega
            have hSWout : (childSW b).inside p.x p.y = false := by
              rw [inside_false_iff]
              intro hc
              have := (insideP_childSW hPin).1 hc
              omega
            have hNEoutL : (Quad.leaf dflt (⟨0, 0⟩ : Pos) (childNE b)).bound.inside p.x p.y = false := hNEout
            have hNWoutL : (Quad.leaf dflt (⟨0, 0⟩ : Pos) (childNW b)).bound.inside p.x p.y = false := hNWout
            have hSWoutL : (Quad.leaf dflt (⟨0, 0⟩ : Pos) (childSW b)).bound.inside p.x p.y = false := hSWout
            simp only [Option.bind_eq_bind] at h
            cases h1 : insQ dflt noRep fuel (Quad.leaf dflt ⟨0, 0⟩ (childNE b)) p.x p.y d (sz) with
            | none => rw [h1] at h; simp at h
            | some o1 =>
              rw [h1, insQ_outside_eq hNEoutL h1] at h
              simp only [Option.some_bind] at h
              cases h2 : insQ dflt noRep fuel (Quad.leaf dflt ⟨0, 0⟩ (childNW b)) p.x p.y d (sz) with
              | none => rw [h2] at h; simp at h
              | some o2 =>
                rw [h2, insQ_outside_eq hNWoutL h2] at h
                simp only [Option.some_bind] at h
                cases h3 : insQ dflt noRep fuel (Quad.leaf dflt ⟨0, 0⟩ (childSW b)) p.x p.y d (sz) with
                | none => rw [h3] at h; simp at h
                | some o3 =>
                  rw [h3, insQ_outside_eq hSWoutL h3] at h
                  simp only [Option.some_bind] at h
                  cases h4 : insQ dflt noRep fuel (Quad.leaf dflt ⟨0, 0⟩ (childSE b)) p.x p.y d (sz) with
                  | none => rw [h4] at h; simp at h
                  | some o4 =>
                    obtain ⟨se1, szD, rD⟩ := o4
                    rw [h4] at h
                    simp only [Option.some_bind] at h
                    obtain ⟨rfl, rfl, rfl⟩ := triple_eq (insQ_fresh_leaf hSEin h4)
                    simp only [Nat.add_sub_cancel] at h
                    have hch := chain4_spec dflt noRep
                      (fun c szc => insQ dflt noRep fuel c x y item szc) d p b
                      (Quad.leaf dflt ⟨0, 0⟩ (childNE b))
                      (Quad.leaf dflt ⟨0, 0⟩ (childNW b))
                      (Quad.leaf dflt ⟨0, 0⟩ (childSW b))
                      (Quad.leaf d ⟨p.x, p.y⟩ (childSE b))
                      x y item sz out S hwfB rfl rfl rfl rfl
                      (wfB_childNE hwfB) (wfB_childNW hwfB)
                      (wfB_childSW hwfB) (wfB_childSE hwfB)
                      (fun hc => absurd rfl hc)
                      (fun hc => absurd rfl hc)
                      (fun hc => absurd rfl hc)
                      (fun _ => ⟨(insideP_childSE hPin).2 ⟨pcx, by omega⟩, hSp⟩)
                      hin
                      (fun c szc o hco hso => insQ_outside_eq hco hso)
                      (fun c szc o hwc hoc hic hsc => IH c x y item szc o S hwc hoc hic hsc)
                      h
                    exact insConc_subdiv hwfB hp
                      (fresh_pointwise dflt d p b (childNE b)
                        ((inside_false_iff _ _ _).1 hNEout))
                      (fresh_pointwise dflt d p b (childNW b)
                        ((inside_false_iff _ _ _).1 hNWout))
                      (fresh_pointwise dflt d p b (childSW b)
                        ((inside_false_iff _ _ _).1 hSWout))
                      (pushed_pointwise dflt d p b (childSE b)
                        (fun u v huv => insideP_of_childSE hwfB huv))
                      hch
          · -- the pushed point lands in the NW child
            have hNWin : (childNW b).inside p.x p.y = true :=
              (inside_iff _ _ _).2 ((insideP_childNW hPin).2 ⟨by omega, pcy⟩)
            have hNEout : (childNE b).inside p.x p.y = false := by
              rw [inside_false_iff]
              intro hc
              have := (insideP_childNE hPin).1 hc
              omega
            have hSWout : (childSW b).inside p.x p.y = false := by
              rw [inside_false_iff]
              intro hc
              have := (insideP_childSW hPin).1 hc
              omega
            have hSEout : (childSE b).inside p.x p.y = false := by
              rw [inside_false_iff]
              intro hc
              have := (insideP_childSE hPin).1 hc
              omega
            have hNEoutL : (Quad.leaf dflt (⟨0, 0⟩ : Pos) (childNE b)).bound.inside p.x p.y = false := hNEout
            have hSWoutL : (Quad.leaf dflt (⟨0, 0⟩ : Pos) (childSW b)).bound.inside p.x p.y = false := hSWout
            have hSEoutL : (Quad.leaf dflt (⟨0, 0⟩ : Pos) (childSE b)).bound.inside p.x p.y = false := hSEout
            simp only [Option.bind_eq_bind] at h
            cases h1 : insQ dflt noRep fuel (Quad.leaf dflt ⟨0, 0⟩ (childNE b)) p.x p.y d (sz) with
            | none => rw [h1] at h; simp at h
            | some o1 =>
              rw [h1, insQ_outside_eq hNEoutL h1] at h
              simp only [Option.some_bind] at h
              cases h2 : insQ dflt noRep fuel (Quad.leaf dflt ⟨0, 0⟩ (childNW b)) p.x p.y d (sz) with
              | none => rw [h2] at h; simp at h
              | some o2 =>
                obtain ⟨nw1, szB, rB⟩ := o2
                rw [h2] at h
                simp only [Option.some_bind] at h
                obtain ⟨rfl, rfl, rfl⟩ := triple_eq (insQ_fresh_leaf hNWin h2)
                cases h3 : insQ dflt noRep fuel (Quad.leaf dflt ⟨0, 0⟩ (childSW b)) p.x p.y d (sz + 1) with
                | none => rw [h3] at h; simp at h
                | some o3 =>
                  rw [h3, insQ_outside_eq hSWoutL h3] at h
                  simp only [Option.some_bind] at h
                  cases h4 : insQ dflt noRep fuel (Quad.leaf dflt ⟨0, 0⟩ (childSE b)) p.x p.y d (sz + 1) with
                  | none => rw [h4] at h; simp at h
                  | some o4 =>
                    rw [h4, insQ_outside_eq hSEoutL h4] at h
                    simp only [Option.some_bind] at h
                    simp only [Nat.add_sub_cancel] at h
                    have hch := chain4_spec dflt noRep
                      (fun c szc => insQ dflt noRep fuel c x y item szc) d p b
                      (Quad.leaf dflt ⟨0, 0⟩ (childNE b))
                      (Quad.leaf d ⟨p.x, p.y⟩ (childNW b))
                      (Quad.leaf dflt ⟨0, 0⟩ (childSW b))
                      (Quad.leaf dflt ⟨0, 0⟩ (childSE b))
                      x y item sz out S hwfB rfl rfl rfl rfl
                      (wfB_childNE hwfB) (wfB_childNW hwfB)
                      (wfB_childSW hwfB) (wfB_childSE hwfB)
                      (fun hc => absurd rfl hc)
                      (fun _ => ⟨(insideP_childNW hPin).2 ⟨by omega, pcy⟩, hSp⟩)
                      (fun hc => absurd rfl hc)
                      (fun hc => absurd rfl hc)
                      hin
                      (fun c szc o hco hso => insQ_outside_eq hco hso)
                      (fun c szc o hwc hoc hic hsc => IH c x y item szc o S hwc hoc hic hsc)
                      h
                    exact insConc_subdiv hwfB hp
                      (fresh_pointwise dflt d p b (childNE b)
                        ((inside_false_iff _ _ _).1 hNEout))
                      (pushed_pointwise dflt d p b (childNW b)
                        (fun u v huv => insideP_of_childNW hwfB huv))
                      (fresh_pointwise dflt d p b (childSW b)
                        ((inside_false_iff _ _ _).1 hSWout))
                      (fresh_pointwise dflt d p b (childSE b)
                        ((inside_false_iff _ _ _).1 hSEout))
                      hch
          · -- the pushed point lands in the SW child
            have hSWin : (childSW b).inside p.x p.y = true :=
              (inside_iff _ _ _).2 ((insideP_childSW hPin).2 ⟨by omega, by omega⟩)
            have hNEout : (childNE b).inside p.x p.y = false := by
              rw [inside_false_iff]
              intro hc
              have := (insideP_childNE hPin).1 hc
              omega
            have hNWout : (childNW b).inside p.x p.y = false := by
              rw [inside_false_iff]
              intro hc
              have := (insideP_childNW hPin).1 hc
              omega
            have hSEout : (childSE b).inside p.x p.y = false := by
              rw [inside_false_iff]
              intro hc
              have := (insideP_childSE hPin).1 hc
              omega
            have hNEoutL : (Quad.leaf dflt (⟨0, 0⟩ : Pos) (childNE b)).bound.inside p.x p.y = false := hNEout
            have hNWoutL : (Quad.leaf dflt (⟨0, 0⟩ : Pos) (childNW b)).bound.inside p.x p.y = false := hNWout
            have hSEoutL : (Quad.leaf dflt (⟨0, 0⟩ : Pos) (childSE b)).bound.inside p.x p.y = false := hSEout
            simp only [Option.bind_eq_bind] at h
            cases h1 : insQ dflt noRep fuel (Quad.leaf dflt ⟨0, 0⟩ (childNE b)) p.x p.y d (sz) with
            | none => rw [h1] at h; simp at h
            | some o1 =>
              rw [h1, insQ_outside_eq hNEoutL h1] at h
              simp only [Option.some_bind] at h
              cases h2 : insQ dflt noRep fuel (Quad.leaf dflt ⟨0, 0⟩ (childNW b)) p.x p.y d (sz) with
              | none => rw [h2] at h; simp at h
              | some o2 =>
                rw [h2, insQ_outside_eq hNWoutL h2] at h
                simp only [Option.some_bind] at h
                cases h3 : insQ dflt noRep fuel (Quad.leaf dflt ⟨0, 0⟩ (childSW b)) p.x p.y d (sz) with
                | none => rw [h3] at h; simp at h
                | some o3 =>
                  obtain ⟨sw1, szC, rC⟩ := o3
                  rw [h3] at h
                  simp only [Option.some_bind] at h
                  obtain ⟨rfl, rfl, rfl⟩ := triple_eq (insQ_fresh_leaf hSWin h3)
                  cases h4 : insQ dflt noRep fuel (Quad.leaf dflt ⟨0, 0⟩ (childSE b)) p.x p.y d (sz + 1) with
                  | none => rw [h4] at h; simp at h
                  | some o4 =>
                    rw [h4, insQ_outside_eq hSEoutL h4] at h
                    simp only [Option.some_bind] at h
                    simp only [Nat.add_sub_cancel] at h
                    have hch := chain4_spec dflt noRep
                      (fun c szc => insQ dflt noRep fuel c x y item szc) d p b
                      (Quad.leaf dflt ⟨0, 0⟩ (childNE b))
                      (Quad.leaf dflt ⟨0, 0⟩ (childNW b))
                      (Quad.leaf d ⟨p.x, p.y⟩ (childSW b))
                      (Quad.leaf dflt ⟨0, 0⟩ (childSE b))
                      x y item sz out S hwfB rfl rfl rfl rfl
                      (wfB_childNE hwfB) (wfB_childNW hwfB)
                      (wfB_childSW hwfB) (wfB_childSE hwfB)
                      (fun hc => absurd rfl hc)
                      (fun hc => absurd rfl hc)
                      (fun _ => ⟨(insideP_childSW hPin).2 ⟨by omega, by omega⟩, hSp⟩)
                      (fun hc => absurd rfl hc)
                      hin
                      (fun c szc o hco hso => insQ_outside_eq hco hso)
                      (fun c szc o hwc hoc hic hsc => IH c x y item szc o S hwc hoc hic hsc)
                      h
                    exact insConc_subdiv hwfB hp
                      (fresh_pointwise dflt d p b (childNE b)
                        ((inside_false_iff _ _ _).1 hNEout))
                      (fresh_pointwise dflt d p b (childNW b)
                        ((inside_false_iff _ _ _).1 hNWout))
                      (pushed_pointwise dflt d p b (childSW b)
                        (fun u v huv => insideP_of_childSW hwfB huv))
                      (fresh_pointwise dflt d p b (childSE b)
                        ((inside_false_iff _ _ _).1 hSEout))
                      hch
        · rw [if_neg hp] at h
          push_neg at hp
          have hpeq : p = ⟨x, y⟩ := by
            cases p
            simp only [Pos.mk.injEq]
            exact hp
          have hg : getV dflt (Quad.leaf d p b) x y = d := by
            simp [getV, hb2, hp.1, hp.2]
          by_cases hnr : noRep = false
          · rw [if_pos hnr] at h
            obtain rfl := Option.some.inj h
            obtain ⟨hPin, hSp⟩ := hocc hd
            refine ⟨rfl, hwf, ?_, ?_, ?_, ?_⟩
            · intro _
              exact ⟨hPin, Or.inl hpeq⟩
            · intro u v
              by_cases huv : u = x ∧ v = y
              · rw [if_pos huv, if_neg (by simp [hnr])]
                obtain ⟨rfl, rfl⟩ := huv
                simp [getV, hb2, hp.1, hp.2]
              · rw [if_neg huv,
                  getV_leaf_pos_ne dflt item p b
                    (fun hc => huv ⟨hc.1.symm.trans hp.1, hc.2.symm.trans hp.2⟩),
                  getV_leaf_pos_ne dflt d p b
                    (fun hc => huv ⟨hc.1.symm.trans hp.1, hc.2.symm.trans hp.2⟩)]
            · simp [hg, hd]
            · intro hfalse
              simp at hfalse
          · have hnr2 : noRep = true := by
              revert hnr
              cases noRep <;> simp
            rw [if_neg hnr] at h
            obtain rfl := Option.some.inj h
            refine ⟨rfl, hwf, occQ_mono (fun r hr => Or.inr hr) _ hocc, ?_, ?_, ?_⟩
            · intro u v
              by_cases huv : u = x ∧ v = y
              · rw [if_pos huv, if_pos ⟨hnr2, by rw [hg]; exact hd⟩]
                obtain ⟨rfl, rfl⟩ := huv
                rfl
              · rw [if_neg huv]
            · simp [hg, hd]
            · intro _
              exact ⟨rfl, rfl, hnr2, by rw [hg]; exact hd⟩

def updFun [DecidableEq V] (noRep : Bool) (dflt : V) (x y : Int) :
    V → List (Int × Int × V) → V
  | cur, [] => cur
  | cur, (a, b, v) :: rest =>
    updFun noRep dflt x y
      (if a = x ∧ b = y then (if noRep = true ∧ cur ≠ dflt then cur else v) else cur) rest

def lastVal (dflt : V) (x y : Int) : V → List (Int × Int × V) → V
  | cur, [] => cur
  | cur, (a, b, v) :: rest => lastVal dflt x y (if a = x ∧ b = y then v else cur) rest

theorem updFun_false [DecidableEq V] (dflt : V) (x y : Int) :
    ∀ (l : List (Int × Int × V)) (cur : V),
      updFun false dflt x y cur l = lastVal dflt x y cur l := by
  intro l
  induction l with
  | nil => intro cur; rfl
  | cons op rest IH =>
    obtain ⟨a, b, v⟩ := op
    intro cur
    simp only [updFun, lastVal, Bool.false_eq_true, false_and, if_false]
    exact IH _

theorem wfB_rootBound {cX cY w h a b : Int}
    (hin : insideP (rootBound cX cY w h) a b) : wfB (rootBound cX cY w h) := by
  obtain ⟨h1, h2⟩ := tz2_le (2 * cX - w)
  obtain ⟨h3, h4⟩ := tz2_le (2 * cY - h)
  simp only [insideP, rootBound, wfB] at *
  omega

theorem runInserts_sound [DecidableEq V] (fuel : Nat) :
    ∀ (ops : List (Int × Int × V)) (t : PTree V) (q : Quad V) (S : Pos → Prop)
      (t2 : PTree V),
      t.root = some q →
      wfQ q → occQ t.dflt S q →
      (∀ op ∈ ops, insideP q.bound op.1 op.2.1) →
      runInserts fuel t ops = some t2 →
      t2.dflt = t.dflt ∧ t2.flag = t.flag ∧
      ∃ q2, t2.root = some q2 ∧ q2.bound = q.bound ∧ wfQ q2 ∧
        occQ t.dflt (fun r => (∃ op ∈ ops, r = ⟨op.1, op.2.1⟩) ∨ S r) q2 ∧
        (∀ u v, getV t.dflt q2 u v =
          updFun t.noReplace t.dflt u v (getV t.dflt q u v) ops) ∧
        ((ops.map fun o => (o.1, o.2.1)).Nodup →
          (∀ op ∈ ops, ¬ S ⟨op.1, op.2.1⟩) →
          t2.size = t.size + ops.length) := by
  intro ops
  induction ops with
  | nil =>
    intro t q S t2 hroot hwf hocc hin hrun
    simp only [runInserts] at hrun
    obtain rfl := Option.some.inj hrun
    exact ⟨rfl, rfl, q, hroot, rfl, hwf,
      occQ_mono (fun r hr => Or.inr hr) _ hocc,
      fun u v => rfl,
      fun _ _ => by simp⟩
  | cons op rest IH =>
    obtain ⟨a, b, c⟩ := op
    intro t q S t2 hroot hwf hocc hin hrun
    simp only [runInserts, Option.bind_eq_bind] at hrun
    simp only [ptInsert, hroot] at hrun
    cases hi : insQ t.dflt t.noReplace fuel q a b c t.size with
    | none => rw [hi] at hrun; simp at hrun
    | some r =>
      obtain ⟨q1, sz1, r1⟩ := r
      rw [hi] at hrun
      simp only [Option.map_some', Option.some_bind] at hrun
      have hC := insQ_spec t.dflt t.noReplace fuel q a b c t.size (q1, sz1, r1) S
        hwf hocc (hin (a, b, c) (List.mem_cons_self _ _)) hi
      have hbq1 : q1.bound = q.bound := hC.1
      have hwfq1 : wfQ q1 := hC.2.1
      have hoccq1 : occQ t.dflt (fun p => p = ⟨a, b⟩ ∨ S p) q1 := hC.2.2.1
      have hget1 : ∀ u v, getV t.dflt q1 u v =
          if u = a ∧ v = b then
            (if t.noReplace = true ∧ getV t.dflt q a b ≠ t.dflt then getV t.dflt q a b else c)
          else getV t.dflt q u v := hC.2.2.2.1
      have hsz1e : sz1 = t.size + (if getV t.dflt q a b = t.dflt then 1 else 0) :=
        hC.2.2.2.2.1
      have hrun2 : runInserts fuel
          { t with root := some q1, size := sz1, depth := computeDepth q1 } rest
            = some t2 := hrun
      have IH2 := IH { t with root := some q1, size := sz1, depth := computeDepth q1 } q1
        (fun p => p = ⟨a, b⟩ ∨ S p) t2 rfl hwfq1 hoccq1
        (fun op hop => by
          rw [hbq1]
          exact hin op (List.mem_cons_of_mem _ hop))
        hrun2
      obtain ⟨hd2, hf2, q2, hroot2, hb2, hwf2, hocc2, hget2, hsz2⟩ := IH2
      have hd2e : t2.dflt = t.dflt := hd2
      have hf2e : t2.flag = t.flag := hf2
      have hocc2e : occQ t.dflt
          (fun r => (∃ op ∈ rest, r = ⟨op.1, op.2.1⟩) ∨ (r = ⟨a, b⟩ ∨ S r)) q2 := hocc2
      have hget2e : ∀ u v, getV t.dflt q2 u v =
          updFun t.noReplace t.dflt u v (getV t.dflt q1 u v) rest := hget2
      have hsz2e : (rest.map fun o => (o.1, o.2.1)).Nodup →
          (∀ op ∈ rest, ¬ (⟨op.1, op.2.1⟩ = (⟨a, b⟩ : Pos) ∨ S ⟨op.1, op.2.1⟩)) →
          t2.size = sz1 + rest.length := hsz2
      refine ⟨hd2e, hf2e, q2, hroot2, hb2.trans hbq1, hwf2, ?_, ?_, ?_⟩
      · refine occQ_mono ?_ _ hocc2e
        rintro p (⟨op, hop, heq⟩ | hab | hs)
        · exact Or.inl ⟨op, List.mem_cons_of_mem _ hop, heq⟩
        · exact Or.inl ⟨(a, b, c), List.mem_cons_self _ _, hab⟩
        · exact Or.inr hs
      · intro u v
        rw [hget2e u v]
        simp only [updFun]
        congr 1
        rw [hget1 u v]
        by_cases hab : u = a ∧ v = b
        · obtain ⟨rfl, rfl⟩ := hab
          simp
        · rw [if_neg hab, if_neg (fun hc => hab ⟨hc.1.symm, hc.2.symm⟩)]
      · intro hnodup hfresh
        have hfree : getV t.dflt q a b = t.dflt := by
          by_contra hne2
          exact hfresh (a, b, c) (List.mem_cons_self _ _) (getV_mem hocc hne2)
        have hszv : sz1 = t.size + 1 := by
          rw [hsz1e, hfree]
          simp
        simp only [List.map_cons, List.nodup_cons] at hnodup
        have hrest := hsz2e hnodup.2 (fun op hop hcon => by
          rcases hcon with heq | hs
          · have h1 : op.1 = a := congrArg Pos.x heq
            have h2 : op.2.1 = b := congrArg Pos.y heq
            have : ((a, b) : Int × Int) ∈ rest.map fun o => (o.1, o.2.1) := by
              rw [← h1, ← h2]
              exact List.mem_map_of_mem _ hop
            exact hnodup.1 this
          · exact hfresh op (List.mem_cons_of_mem _ hop) hs)
        rw [hrest, hszv]
        simp only [List.length_cons]
        omega

/-- C7 (amended): for a point quadtree built by inserting a non-empty
sequence of operations whose coordinates all lie inside the root bounds,
`at(x,y)` returns the left fold of the operations (`updFun`): each insert
at `(x,y)` overwrites, except that with the no-replace flag set a value
is kept as long as it differs from the default; with the flag clear this
is exactly the most recently inserted value (`lastVal`); and for
pairwise distinct coordinates `size` equals the number of inserts. -/
theorem c7_point_insert_spec [DecidableEq V] (fuel : Nat)
    (t0 : PTree V) (ops : List (Int × Int × V)) (t2 : PTree V)
    (hroot : t0.root = none) (hsz : t0.size = 0)
    (hops : ops ≠ [])
    (hin : ∀ op ∈ ops, insideP (rootBound t0.cX t0.cY t0.width t0.height) op.1 op.2.1)
    (hrun : runInserts fuel t0 ops = some t2) :
    (∀ x y, ptAt t2 x y = .ok (updFun t0.noReplace t0.dflt x y t0.dflt ops)) ∧
    (t0.noReplace = false →
      ∀ x y, ptAt t2 x y = .ok (lastVal t0.dflt x y t0.dflt ops)) ∧
    ((ops.map fun o => (o.1, o.2.1)).Nodup → t2.size = ops.length) := by
  match ops, hops with
  | (a, b, c) :: rest, _ =>
    simp only [runInserts, Option.bind_eq_bind] at hrun
    simp only [ptInsert, hroot] at hrun
    simp only [Option.some_bind] at hrun
    have hrun2 : runInserts fuel
        { t0 with
          root := some (Quad.leaf c ⟨a, b⟩ (rootBound t0.cX t0.cY t0.width t0.height)),
          size := t0.size + 1 } rest = some t2 := hrun
    have hinH : insideP (rootBound t0.cX t0.cY t0.width t0.height) a b :=
      hin (a, b, c) (List.mem_cons_self _ _)
    have hwfR : wfB (rootBound t0.cX t0.cY t0.width t0.height) := wfB_rootBound hinH
    have hS := runInserts_sound fuel rest
      { t0 with
        root := some (Quad.leaf c ⟨a, b⟩ (rootBound t0.cX t0.cY t0.width t0.height)),
        size := t0.size + 1 }
      (Quad.leaf c ⟨a, b⟩ (rootBound t0.cX t0.cY t0.width t0.height))
      (fun p => p = ⟨a, b⟩) t2 rfl hwfR
      (fun _ => ⟨hinH, rfl⟩)
      (fun op hop => hin op (List.mem_cons_of_mem _ hop))
      hrun2
    obtain ⟨hd2, hf2, q2, hroot2, hb2, hwf2, hocc2, hget2, hsz2⟩ := hS
    have hd2e : t2.dflt = t0.dflt := hd2
    have hget2e : ∀ u v, getV t0.dflt q2 u v =
        updFun t0.noReplace t0.dflt u v
          (getV t0.dflt
            (Quad.leaf c ⟨a, b⟩ (rootBound t0.cX t0.cY t0.width t0.height)) u v)
          rest := hget2
    have hsz2e : (rest.map fun o => (o.1, o.2.1)).Nodup →
        (∀ op ∈ rest, ¬ (⟨op.1, op.2.1⟩ : Pos) = (⟨a, b⟩ : Pos)) →
        t2.size = t0.size + 1 + rest.length := hsz2
    have hmain : ∀ x y, ptAt t2 x y =
        .ok (updFun t0.noReplace t0.dflt x y t0.dflt ((a, b, c) :: rest)) := by
      intro x y
      simp only [ptAt, hroot2, hd2e]
      simp only [updFun]
      rw [hget2e x y]
      congr 2
      by_cases hxy : a = x ∧ b = y
      · obtain ⟨rfl, rfl⟩ := hxy
        have hbtrue : (rootBound t0.cX t0.cY t0.width t0.height).inside a b = true :=
          (inside_iff _ _ _).2 hinH
        simp [getV, hbtrue]
      · rw [if_neg hxy,
          getV_leaf_pos_ne t0.dflt c ⟨a, b⟩ (rootBound t0.cX t0.cY t0.width t0.height) hxy]
    refine ⟨hmain, ?_, ?_⟩
    · intro hflag x y
      rw [hmain x y, hflag, updFun_false]
    · intro hnodup
      simp only [List.map_cons, List.nodup_cons] at hnodup
      have := hsz2e hnodup.2 (fun op hop heq => by
        have h1 : op.1 = a := congrArg Pos.x heq
        have h2 : op.2.1 = b := congrArg Pos.y heq
        have hm : ((a, b) : Int × Int) ∈ rest.map fun o => (o.1, o.2.1) := by
          rw [← h1, ← h2]
          exact List.mem_map_of_mem _ hop
        exact hnodup.1 hm)
      rw [this, hsz]
      simp only [List.length_cons]
      omega

/-- Witness for C7: inserting 100 then 200 at (5,5) with the no-replace
flag set leaves `at(5,5) = 100`, and two inserts at distinct in-bounds
coordinates give size 2. -/
theorem c7_point_insert_spec_witness :
    ptAt ((runInserts 32 t20nr [(5, 5, (100 : Int)), (5, 5, 200)]).getD t20nr) 5 5 =
        .ok 100 ∧
      ((runInserts 32 t20 [(5, 5, (100 : Int)), (7, 7, 200)]).getD t20).size = 2 := by
  have h1 := c7_point_insert_spec 32 t20nr [(5, 5, (100 : Int)), (5, 5, 200)]
    ((runInserts 32 t20nr [(5, 5, (100 : Int)), (5, 5, 200)]).getD t20nr)
    rfl rfl (by decide) (by decide) rfl
  have h2 := c7_point_insert_spec 32 t20 [(5, 5, (100 : Int)), (7, 7, 200)]
    ((runInserts 32 t20 [(5, 5, (100 : Int)), (7, 7, 200)]).getD t20)
    rfl rfl (by decide) (by decide) rfl
  refine ⟨?_, ?_⟩
  · rw [h1.1 5 5]
    rfl
  · rw [h2.2.2 (by decide)]
    rfl

/-- Counterexample to C7 as stated: the claim quantifies over any
sequence of inserts, but inserting (5,5) and then the out-of-bounds
point (100,100) into an empty 20x20 tree gives size 1 (not 2), and
`at(100,100)` returns the default 0 rather than the most recently
inserted 7 - the first insert skips the bounds check and every later
out-of-bounds insert is a no-op. -/
theorem c7_out_of_bounds_insert_breaks_count :
    (runInserts 32 t20 [(5, 5, (100 : Int)), (100, 100, 7)]).map
        (fun t => (t.size, ptAt t 100 100)) =
      some (1, .ok 0) := rfl

end EpstlQuad

namespace EpstlPipe

/-!
Transition-system model of `epstl::pipeline` (the variant with the atomic
`m_jobs_in_pipeline` counter).  Items are identified by naturals.  Each
transition corresponds to one mutex-protected critical section of the
code:

* `feed`: `m_jobs_in_pipeline++` and push onto the waiting list;
* `take0`: the stage-0 worker pops the waiting-list head;
* `hand0` / `complete0`: the stage-0 worker finishes its transform and
  either writes the result into slot 1 or — when it is the only stage —
  decrements the counter;
* `handI` / `completeI`: a stage `i > 0` worker consumes its slot and
  either writes into slot `i+1` or — at the final stage — decrements the
  counter and clears its slot;
* `addProcess`, `stop`: grow the stage list, clear the continue flag.

A slot write in the source stores unconditionally; if the destination
slot still held an item, that item disappears without ever decrementing
the counter.  The ghost field `lost` counts such overwritten items so the
counter can be accounted for exactly.
-/

/-- Pipeline state: waiting list, one slot per stage
(`m_passing_arguments`), the item privately held by the stage-0 worker
between pop and handoff, the in-flight counter, the ghost overwrite count
and the negated continue flag. -/
structure PipeState where
  waiting : List Nat
  slots : List (Option Nat)
  running0 : Option Nat
  counter : Nat
  lost : Nat
  stopped : Bool
deriving DecidableEq

/-- A freshly constructed pipeline: no stages, nothing queued. -/
def initPipe : PipeState := ⟨[], [], none, 0, 0, false⟩

/-- `pipeline::feed`: increment the counter and append to the waiting
list (the code performs no checks here). -/
def feed (s : PipeState) (t : Nat) : PipeState :=
  { s with counter := s.counter + 1, waiting := s.waiting ++ [t] }

/-- `pipeline::add_process`: one more stage with an empty slot. -/
def addProcess (s : PipeState) : PipeState :=
  { s with slots := s.slots ++ [none] }

/-- `pipeline::stop` (the state effect visible to this model: the
continue flag is cleared). -/
def stopPipe (s : PipeState) : PipeState := { s with stopped := true }

/-- `pipeline::wait_end`: returns exactly when the counter is observed to
be zero, and then stops the pipeline. -/
def waitEnd (s : PipeState) : Option PipeState :=
  if s.counter = 0 then some (stopPipe s) else none

/-- Number of occupied stage slots. -/
def occupied (slots : List (Option Nat)) : Nat := slots.countP fun o => o.isSome

/-- Completion at stage 0 when it is the only stage: decrement the
counter. -/
def complete0 (s : PipeState) : PipeState :=
  { s with running0 := none, counter := s.counter - 1 }

/-- Handoff from stage 0 into slot 1. -/
def hand0 (s : PipeState) (t : Nat) : PipeState :=
  { s with running0 := none,
           slots := s.slots.set 1 (some t),
           lost := s.lost + if (s.slots.getD 1 none).isSome then 1 else 0 }

/-- Completion at the final stage `i > 0`: decrement the counter and
clear the slot. -/
def completeI (s : PipeState) (i : Nat) : PipeState :=
  { s with slots := s.slots.set i none, counter := s.counter - 1 }

/-- Handoff from stage `i > 0` into slot `i+1`, clearing slot `i`. -/
def handI (s : PipeState) (i t : Nat) : PipeState :=
  { s with slots := (s.slots.set (i + 1) (some t)).set i none,
           lost := s.lost + if (s.slots.getD (i + 1) none).isSome then 1 else 0 }

/-- One atomic step of the pipeline. -/
inductive Step : PipeState → PipeState → Prop where
  | feed (s : PipeState) (t : Nat) : Step s (feed s t)
  | addProcess (s : PipeState) : Step s (addProcess s)
  | stop (s : PipeState) : Step s (stopPipe s)
  | take0 (s : PipeState) (t : Nat) (rest : List Nat) :
      s.stopped = false → 0 < s.slots.length → s.running0 = none →
      s.waiting = t :: rest →
      Step s { s with waiting := rest, running0 := some t }
  | hand0 (s : PipeState) (t : Nat) :
      s.running0 = some t → 1 < s.slots.length →
      Step s (hand0 s t)
  | complete0 (s : PipeState) (t : Nat) :
      s.running0 = some t → s.slots.length = 1 →
      Step s (complete0 s)
  | handI (s : PipeState) (i t : Nat) :
      s.stopped = false → 0 < i → i + 1 < s.slots.length →
      s.slots.getD i none = some t →
      Step s (handI s i t)
  | completeI (s : PipeState) (i t : Nat) :
      s.stopped = false → 0 < i → i + 1 = s.slots.length →
      s.slots.getD i none = some t →
      Step s (completeI s i)

/-- States reachable from a fresh pipeline. -/
inductive Reachable : PipeState → Prop where
  | init : Reachable initPipe
  | step {s s2 : PipeState} : Reachable s → Step s s2 → Reachable s2

/-- The accounting invariant: the in-flight counter equals the items in
the waiting list, plus the item held by the stage-0 worker, plus the
occupied slots, plus the items lost to slot overwrites. -/
def counterInv (s : PipeState) : Prop :=
  s.counter = s.waiting.length + (if s.running0.isSome then 1 else 0)
    + occupied s.slots + s.lost

theorem occupied_set (l : List (Option Nat)) (i : Nat) (v : Option Nat)
    (h : i < l.length) :
    occupied (l.set i v) + (if (l.getD i none).isSome then 1 else 0)
      = occupied l + (if v.isSome then 1 else 0) := by
  induction l generalizing i with
  | nil => simp at h
  | cons a l ih =>
    cases i with
    | zero => simp [occupied, List.countP_cons]; omega
    | succ i =>
      simp only [List.length_cons, Nat.succ_lt_succ_iff] at h
      have := ih i h
      simp only [occupied, List.countP_cons, List.set_cons_succ, List.getD_cons_succ] at *
      omega

theorem occupied_append_none (l : List (Option Nat)) :
    occupied (l ++ [none]) = occupied l := by
  simp [occupied]

theorem getD_set_ne (l : List (Option Nat)) (i j : Nat) (v : Option Nat)
    (h : i ≠ j) : (l.set i v).getD j none = l.getD j none := by
  induction l generalizing i j with
  | nil => simp
  | cons a l ih =>
    cases i with
    | zero =>
      cases j with
      | zero => omega
      | succ j => simp
    | succ i =>
      cases j with
      | zero => simp
      | succ j => simpa using ih i j (by omega)

theorem getD_some_mem (l : List (Option Nat)) (i t : Nat)
    (h : l.getD i none = some t) : some t ∈ l := by
  induction l generalizing i with
  | nil => simp at h
  | cons a l ih =>
    cases i with
    | zero => simp at h; simp [h]
    | succ i =>
      simp only [List.getD_cons_succ] at h
      exact List.mem_cons_of_mem a (ih i h)

/-- The invariant holds in every reachable state. -/
theorem reachable_counterInv (s : PipeState) (h : Reachable s) : counterInv s := by
  induction h with
  | init => rfl
  | @step s s2 _ hs ih =>
    cases hs with
    | feed t =>
      simp only [counterInv, EpstlPipe.feed, List.length_append, List.length_cons,
        List.length_nil] at ih ⊢
      omega
    | addProcess =>
      simp only [counterInv, EpstlPipe.addProcess, occupied_append_none] at ih ⊢
      omega
    | stop => simpa [counterInv, stopPipe] using ih
    | take0 t rest h1 h2 h3 h4 =>
      simp [counterInv, h3, h4] at ih
      simp [counterInv]
      omega
    | hand0 t h1 h2 =>
      have hset := occupied_set s.slots 1 (some t) h2
      simp [counterInv, h1] at ih
      simp at hset
      simp [counterInv, EpstlPipe.hand0]
      omega
    | complete0 t h1 h2 =>
      simp [counterInv, h1] at ih
      simp [counterInv, EpstlPipe.complete0]
      omega
    | handI i t h1 h2 h3 h4 =>
      have hset1 := occupied_set s.slots (i + 1) (some t) h3
      have hi : i < (s.slots.set (i + 1) (some t)).length := by
        simp only [List.length_set]; omega
      have hset2 := occupied_set (s.slots.set (i + 1) (some t)) i none hi
      have hgd : (s.slots.set (i + 1) (some t)).getD i none = s.slots.getD i none :=
        getD_set_ne _ _ _ _ (by omega)
      rw [hgd, h4] at hset2
      simp at hset1 hset2
      simp [counterInv] at ih
      simp [counterInv, EpstlPipe.handI]
      omega
    | completeI i t h1 h2 h3 h4 =>
      have hi : i < s.slots.length := by omega
      have hset := occupied_set s.slots i none hi
      rw [h4] at hset
      simp at hset
      simp [counterInv] at ih
      simp [counterInv, EpstlPipe.completeI]
      omega

/-- C4: (a) every `feed` increments the in-flight counter by exactly one;
(b) every completion past the final stage (`complete0` for a one-stage
pipeline, `completeI` at the last stage otherwise) decrements it by
exactly one; (c) `wait_end` returns exactly when the counter is zero, at
which point the waiting list is empty, the stage-0 worker holds nothing
and every stage slot is empty, and the returned state is the stopped
pipeline. -/
theorem c4_pipeline_counter_and_quiescence :
    (∀ (s : PipeState) (t : Nat), (feed s t).counter = s.counter + 1) ∧
      (∀ (s : PipeState) (t : Nat), Reachable s → s.running0 = some t →
        (complete0 s).counter + 1 = s.counter) ∧
      (∀ (s : PipeState) (i t : Nat), Reachable s → s.slots.getD i none = some t →
        (completeI s i).counter + 1 = s.counter) ∧
      (∀ s : PipeState, Reachable s → s.counter = 0 →
        s.waiting = [] ∧ s.running0 = none ∧ (∀ o ∈ s.slots, o = none)) ∧
      (∀ s s2 : PipeState, waitEnd s = some s2 ↔ (s.counter = 0 ∧ s2 = stopPipe s)) := by
  refine ⟨?_, ?_, ?_, ?_, ?_⟩
  · intro s t; rfl
  · intro s t hr h1
    have := reachable_counterInv s hr
    simp [counterInv, h1] at this
    simp [complete0]
    omega
  · intro s i t hr h1
    have := reachable_counterInv s hr
    have hmem : some t ∈ s.slots := getD_some_mem s.slots i t h1
    have hocc : 0 < occupied s.slots := by
      simp only [occupied, List.countP_pos_iff]
      exact ⟨some t, hmem, rfl⟩
    simp [counterInv] at this
    simp [completeI]
    omega
  · intro s hr h0
    have := reachable_counterInv s hr
    simp [counterInv, h0] at this
    refine ⟨List.eq_nil_of_length_eq_zero (by omega), ?_, ?_⟩
    · cases h1 : s.running0 with
      | none => rfl
      | some t =>
        exfalso
        simp [h1] at this
        omega
    · intro o ho
      have hocc : occupied s.slots = 0 := by omega
      simp only [occupied, List.countP_eq_zero] at hocc
      have := hocc o ho
      cases o with
      | none => rfl
      | some t => simp at this
  · intro s s2
    constructor
    · intro h
      by_cases h0 : s.counter = 0
      · refine ⟨h0, ?_⟩
        simpa [waitEnd, h0] using h.symm
      · simp [waitEnd, h0] at h
    · rintro ⟨h0, rfl⟩
      simp [waitEnd, h0]

/-- Witness for `c4_pipeline_counter_and_quiescence`: the fresh pipeline
is reachable with counter zero; a single feed raises the counter to 1,
and `wait_end` on the fresh pipeline returns the stopped pipeline. -/
theorem c4_pipeline_witness :
    (feed initPipe 0).counter = 1 ∧
      (initPipe.waiting = [] ∧ initPipe.running0 = none ∧
        (∀ o ∈ initPipe.slots, o = none)) ∧
      waitEnd initPipe = some (stopPipe initPipe) := by
  refine ⟨c4_pipeline_counter_and_quiescence.1 initPipe 0, ?_, ?_⟩
  · exact c4_pipeline_counter_and_quiescence.2.2.2.1 initPipe Reachable.init rfl
  · exact (c4_pipeline_counter_and_quiescence.2.2.2.2 initPipe (stopPipe initPipe)).2
      ⟨rfl, rfl⟩

end EpstlPipe
